import Mathlib

/-!
# aiproxy: authentication, model-name resolution, TTS pre-check and dashboard gap filling

A shallow embedding of

* `relay/adaptor/xunfei/main.go`  (`getXunfeiDomain`),
* `middleware/auth.go`            (`AdminAuth`, `TokenAuth`, `sliceFilter`, `storeTokenModels`),
* `relay/controller/tts.go`       (the pre-check closure of `RelayTTSHelper`),
* `controller/dashboard.go`       (`getDashboardTime`, `fillGaps`),

followed by the theorems about them.

Conventions.  Go strings are Lean `String`s (sequences of Unicode code points; the separators
and prefixes the code looks for are ASCII, so cutting at a character is cutting at its byte).
The case table of the standard library `unicode` package, which `strings.ToLower` consults for
the code points above ASCII, is passed in as the function `unicodeLower`.  A Go `error` is the
text of its message and `nil` is `none`.  Go `int64` values are `Int`s: the timestamps handled here are Unix seconds of chart
buckets, far from the `int64` range, so wrap-around is not modelled.  Collaborators that live in
other packages (token store, group store, subnet check, price table, request parser, tokenizer)
are passed in as functions, and every consultation of one is recorded in a call trace so that
"is not consulted" is a statement about the trace.
-/

namespace Aiproxy

/-! ## Go `strings` helpers -/

/-- Go `unicode.ToLower(r)`: for a code point up to `unicode.MaxASCII` (127) the letters
`A`..`Z` are mapped to `a`..`z` and everything else is left as it is; above ASCII the result is
read from the case table of the standard library, `unicodeLower` (it sends, for one, the Kelvin
sign U+212A to `k` and the dotted capital I, U+0130, to `i`). -/
def runeToLower (unicodeLower : Char → Char) (r : Char) : Char :=
  if r.toNat ≤ 127 then Char.toLower r else unicodeLower r

/-- Go `strings.ToLower(s)`: every code point of `s` mapped by `unicode.ToLower`. -/
def ToLower (unicodeLower : Char → Char) (s : String) : String :=
  ⟨s.data.map (runeToLower unicodeLower)⟩

/-- Go `strings.HasPrefix`. -/
def HasPrefix (s pre : String) : Bool := pre.data.isPrefixOf s.data

/-- Go `strings.TrimPrefix`: `s` without the leading `pre` when it has it, else `s` unchanged.
At most one occurrence is removed. -/
def TrimPrefix (s pre : String) : String :=
  if HasPrefix s pre then ⟨s.data.drop pre.data.length⟩ else s

/-- Worker of `Cut` on character lists: split around the first occurrence of `sep`. -/
def cutChars (sep : Char) : List Char → Option (List Char × List Char)
  | [] => none
  | c :: rest =>
    if c = sep then some ([], rest)
    else
      match cutChars sep rest with
      | none => none
      | some (before, after) => some (c :: before, after)

/-- Go `strings.Cut(s, sep)` for a one-character separator: the text before and after the first
`sep`, and whether `sep` was found (`("", "", false)` is rendered as `none`; the caller below
ignores `before` and returns at once when the separator is missing). -/
def Cut (s : String) (sep : Char) : Option (String × String) :=
  match cutChars sep s.data with
  | none => none
  | some (before, after) => some (⟨before⟩, ⟨after⟩)

/-! ## relay/adaptor/xunfei/main.go -/

/-- The six domain labels of the first `switch` of `getXunfeiDomain`, as written in the source
(all lower case, they are compared with the lower-cased input). -/
def directDomains : List String :=
  ["lite", "generalv3", "pro-128k", "generalv3.5", "max-32k", "4.0ultra"]

/-- The second `switch` of `getXunfeiDomain`, on the lower-cased text after the first `-`. -/
def sparkAlias (s : String) : String × Option String :=
  if s = "lite" then ("lite", none)
  else if s = "pro" then ("generalv3", none)
  else if s = "pro-128k" then ("pro-128k", none)
  else if s = "max" then ("generalv3.5", none)
  else if s = "max-32k" then ("max-32k", none)
  else if s = "4.0-ultra" then ("4.0Ultra", none)
  else ("", some "invalid model name")

/-- The function `getXunfeiDomain(modelName) (string, error)`.  The pair is the Go result
pair; `unicodeLower` is the case table that `strings.ToLower` consults above ASCII. -/
def getXunfeiDomain (unicodeLower : Char → Char) (modelName : String) :
    String × Option String :=
  if ToLower unicodeLower modelName ∈ directDomains then (modelName, none)
  else
    match Cut modelName '-' with
    | none => ("", some "invalid model name")
    | some (_, s) => sparkAlias (ToLower unicodeLower s)

/-- The six alias labels of the second `switch` of `getXunfeiDomain`, in source order. -/
def sparkAliases : List String :=
  ["lite", "pro", "pro-128k", "max", "max-32k", "4.0-ultra"]

/-- The six canonical upstream domain identifiers of the Spark API. -/
def canonicalDomains : List String :=
  ["lite", "generalv3", "pro-128k", "generalv3.5", "max-32k", "4.0Ultra"]

/-! ## middleware/auth.go -/

/-- Fields of `model.ModelConfig` that the sources under study mention (the model name, the
relay mode `Type`, a reserved word here, and the owner tag, as in the literal of
`cohere.ModelList`). -/
structure ModelConfig where
  Model : String
  Type_ : Nat
  Owner : String
deriving DecidableEq, Repr

/-- The snapshot `model.ModelCaches`: the flat list of enabled model names and the Go map
`EnabledModelsMap`, kept as an association list whose keys are the map keys. -/
structure ModelCaches where
  EnabledModels : List String
  EnabledModelsMap : List (String × ModelConfig)
deriving DecidableEq, Repr

/-- The comma-ok map read `_, ok := enabledModelsMap[m]`. -/
def ModelCaches.hasKey (mc : ModelCaches) (m : String) : Bool :=
  (mc.EnabledModelsMap.lookup m).isSome

/-- The fields of `model.TokenCache` read or written by the middleware. -/
structure TokenCache where
  Group : String := ""
  Key : String := ""
  Name : String := ""
  Subnets : List String := []
  Models : List String := []
  ID : Int := 0
deriving DecidableEq, Repr

/-- The fields of `model.GroupCache` read by the middleware.  `Status` is a Go `int`. -/
structure GroupCache where
  ID : String := ""
  Status : Int := 0
deriving DecidableEq, Repr

/-- Modelled from the spec: the constants `model.GroupStatusEnabled`, `GroupStatusDisabled` and
`GroupStatusInternal` are declared outside src/; the data model lists the three statuses
enabled / disabled / internal, numbered here in that order from 1. -/
def GroupStatusEnabled : Int := 1

/-- Modelled from the spec: see `GroupStatusEnabled`. -/
def GroupStatusDisabled : Int := 2

/-- Modelled from the spec: see `GroupStatusEnabled`. -/
def GroupStatusInternal : Int := 3

/-- The `net/http` status code `http.StatusOK`. -/
def StatusOK : Nat := 200
/-- The status code `http.StatusUnauthorized`. -/
def StatusUnauthorized : Nat := 401
/-- The status code `http.StatusForbidden`. -/
def StatusForbidden : Nat := 403
/-- The status code `http.StatusInternalServerError`. -/
def StatusInternalServerError : Nat := 500

/-- One consultation of a collaborator outside the middleware. -/
inductive Call where
  | ValidateAndGetToken (key : String)
  | IsIPInSubnets (ip : String) (subnets : List String)
  | CacheGetGroup (id : String)
  | LoadModelCaches
deriving DecidableEq, Repr

/-- Configuration and collaborators of the middleware: `config.AdminKey`,
`config.GetInternalToken()`, `model.ValidateAndGetToken`, `network.IsIPInSubnets`,
`model.CacheGetGroup` and `model.LoadModelCaches()`.  A Go `(v, err)` result is an `Except`
whose error is the text of `err.Error()`. -/
structure Env where
  AdminKey : String
  InternalToken : String
  ValidateAndGetToken : String → Except String TokenCache
  IsIPInSubnets : String → List String → Except String Bool
  CacheGetGroup : String → Except String GroupCache
  LoadModelCaches : ModelCaches

/-- The part of `*gin.Context` the two handlers touch: the `Authorization` header, the client
address, the response written so far (`status`, `message`), whether the chain was aborted,
whether `c.Next()` ran, the three context keys `Group`, `Token`, `ModelCaches`, and the trace of
collaborator calls. -/
structure Context where
  Authorization : String
  ClientIP : String := ""
  status : Option Nat := none
  message : String := ""
  aborted : Bool := false
  nextCalled : Bool := false
  Group : Option GroupCache := none
  Token : Option TokenCache := none
  ModelCaches : Option ModelCaches := none
  trace : List Call := []
deriving DecidableEq, Repr

/-- Record a collaborator call at the end of the trace. -/
def Context.call (c : Context) (k : Call) : Context := { c with trace := c.trace ++ [k] }

/-- The helper `ErrorResponse(c, code, message)`: write `{success: false, message}` with status `code`. -/
def ErrorResponse (c : Context) (code : Nat) (message : String) : Context :=
  { c with status := some code, message := message }

/-- The call `c.Abort()`. -/
def Context.Abort (c : Context) : Context := { c with aborted := true }

/-- The call `c.Next()`. -/
def Context.Next (c : Context) : Context := { c with nextCalled := true }

/-- Modelled from the spec: `abortLogWithMessage` is defined outside src/; following the
external-interface section a failure answers with the HTTP status and the message, and the
handler chain is aborted (nothing after it runs in the callers below, which return at once). -/
def abortLogWithMessage (c : Context) (statusCode : Nat) (message : String) : Context :=
  { c with status := some statusCode, message := message, aborted := true }

/-- The handler `AdminAuth`.  The log field set from `c.Param("group")` is not part of the model. -/
def AdminAuth (env : Env) (c : Context) : Context :=
  let accessToken := c.Authorization
  if env.AdminKey ≠ "" ∧ (accessToken = "" ∨ TrimPrefix accessToken "Bearer " ≠ env.AdminKey) then
    (ErrorResponse c StatusUnauthorized "unauthorized, no access token provided").Abort
  else
    c.Next

/-- The function `sliceFilter(s, fn)`: the elements of `s` accepted by `fn`, in order (the Go code compacts
them to the front of the same backing array and returns that prefix). -/
def sliceFilter {T : Type} (s : List T) (fn : T → Bool) : List T :=
  match s with
  | [] => []
  | v :: rest => if fn v then v :: sliceFilter rest fn else sliceFilter rest fn

/-- The function `storeTokenModels(token, modelCaches)`; the updated token is returned. -/
def storeTokenModels (token : TokenCache) (modelCaches : ModelCaches) : TokenCache :=
  if token.Models.length = 0 then
    { token with Models := modelCaches.EnabledModels }
  else
    { token with Models := sliceFilter token.Models (fun m => modelCaches.hasKey m) }

/-- The `%v` rendering of a `[]string`: the elements separated by one blank, in brackets. -/
def fmtStrings (xs : List String) : String := "[" ++ " ".intercalate xs ++ "]"

/-- Lines 116 to 126 of `TokenAuth`: load the snapshot, narrow the token's models, store the
three context keys and call the next handler. -/
def TokenAuth.storeAndNext (env : Env) (c : Context) (token : TokenCache) (group : GroupCache) :
    Context :=
  let c := c.call Call.LoadModelCaches
  let modelCaches := env.LoadModelCaches
  let token := storeTokenModels token modelCaches
  let c := { c with Group := some group, Token := some token, ModelCaches := some modelCaches }
  c.Next

/-- Lines 98 to 114 of `TokenAuth`: the group is the internal pseudo-group for an internal
credential, otherwise it is loaded and its status is checked. -/
def TokenAuth.resolveGroup (env : Env) (c : Context) (token : TokenCache)
    (useInternalToken : Bool) : Context :=
  if useInternalToken then
    TokenAuth.storeAndNext env c token { Status := GroupStatusInternal }
  else
    let c := c.call (Call.CacheGetGroup token.Group)
    match env.CacheGetGroup token.Group with
    | .error err =>
      abortLogWithMessage c StatusInternalServerError ("failed to get group: " ++ err)
    | .ok group =>
      if group.Status ≠ GroupStatusEnabled ∧ group.Status ≠ GroupStatusInternal then
        abortLogWithMessage c StatusForbidden "group is disabled"
      else
        TokenAuth.storeAndNext env c token group

/-- Lines 81 to 96 of `TokenAuth`: the subnet check, made only for a token that lists subnets. -/
def TokenAuth.checkSubnets (env : Env) (c : Context) (token : TokenCache)
    (useInternalToken : Bool) : Context :=
  if token.Subnets.length > 0 then
    let c := c.call (Call.IsIPInSubnets c.ClientIP token.Subnets)
    match env.IsIPInSubnets c.ClientIP token.Subnets with
    | .error err => abortLogWithMessage c StatusInternalServerError err
    | .ok ok =>
      if !ok then
        abortLogWithMessage c StatusForbidden
          ("token (" ++ token.Name ++ "[" ++ toString token.ID ++
            "]) can only be used in the specified subnets: " ++ fmtStrings token.Subnets ++
            ", current ip: " ++ c.ClientIP)
      else
        TokenAuth.resolveGroup env c token useInternalToken
  else
    TokenAuth.resolveGroup env c token useInternalToken

/-- The credential `TokenAuth` works with: the `Authorization` header without one leading
`Bearer ` and then without one leading `sk-`. -/
def credential (c : Context) : String :=
  TrimPrefix (TrimPrefix c.Authorization "Bearer ") "sk-"

/-- The handler `TokenAuth`.  The log fields set by `SetLogTokenFields` and `SetLogGroupFields` are not part
of the model. -/
def TokenAuth (env : Env) (c : Context) : Context :=
  let key := credential c
  if (env.AdminKey ≠ "" ∧ env.AdminKey = key) ∨
      (env.InternalToken ≠ "" ∧ env.InternalToken = key) then
    TokenAuth.checkSubnets env c {} true
  else
    let c := c.call (Call.ValidateAndGetToken key)
    match env.ValidateAndGetToken key with
    | .error err => abortLogWithMessage c StatusUnauthorized err
    | .ok token => TokenAuth.checkSubnets env c token false

/-! ## relay/controller/tts.go -/

/-- The fields of `meta.Meta` read by the TTS pre-check. -/
structure Meta where
  ModelConfig : ModelConfig
  OriginModel : String
  ActualModel : String
deriving DecidableEq, Repr

/-- The field of the parsed text-to-speech request read by the pre-check. -/
structure TTSRequest where
  Input : String
deriving DecidableEq, Repr

/-- Modelled from the spec: `PreCheckGroupBalanceReq` is declared outside src/; the data model
describes it as the input / output / cached / cache-creation token counts paired with their unit
prices.  Prices are Go `float64`s that are only passed through, so their type is a parameter
with a zero; a Go composite literal leaves every field it does not name at zero. -/
structure PreCheckGroupBalanceReq (Price : Type) [Zero Price] where
  InputTokens : Int := 0
  OutputTokens : Int := 0
  CachedTokens : Int := 0
  CacheCreationTokens : Int := 0
  InputPrice : Price := 0
  OutputPrice : Price := 0
  CachedPrice : Price := 0
  CacheCreationPrice : Price := 0

/-- One consultation of a collaborator by the TTS pre-check. -/
inductive PreCheckCall where
  | GetModelPrice (cfg : ModelConfig)
  | UnmarshalTTSRequest (body : String)
  | CountTokenText (text : String) (model : String)
deriving DecidableEq, Repr

/-- Configuration and collaborators of the TTS pre-check: `config.GetBillingEnabled()`,
`GetModelPrice` (four prices and the `ok` flag), `utils.UnmarshalTTSRequest` applied to the
request body, and `openai.CountTokenText`. -/
structure TTSEnv (Price : Type) where
  GetBillingEnabled : Bool
  GetModelPrice : ModelConfig → Price × Price × Price × Price × Bool
  UnmarshalTTSRequest : String → Except String TTSRequest
  CountTokenText : String → String → Int

/-- The closure that `RelayTTSHelper` hands to `Handle`: the Go result pair
`(*PreCheckGroupBalanceReq, error)` together with the trace of collaborator calls.  `body`
stands for `c.Request`. -/
def RelayTTSHelper.preCheck {Price : Type} [Zero Price] (env : TTSEnv Price) (meta : Meta)
    (body : String) :
    (Option (PreCheckGroupBalanceReq Price) × Option String) × List PreCheckCall :=
  if !env.GetBillingEnabled then
    ((some {}, none), [])
  else
    match env.GetModelPrice meta.ModelConfig with
    | (inputPrice, outputPrice, cachedPrice, cacheCreationPrice, ok) =>
      if !ok then
        ((none, some ("model price not found: " ++ meta.OriginModel)),
          [PreCheckCall.GetModelPrice meta.ModelConfig])
      else
        match env.UnmarshalTTSRequest body with
        | .error err =>
          ((none, some err),
            [PreCheckCall.GetModelPrice meta.ModelConfig, PreCheckCall.UnmarshalTTSRequest body])
        | .ok ttsRequest =>
          ((some
              { InputTokens := env.CountTokenText ttsRequest.Input meta.ActualModel
                InputPrice := inputPrice
                OutputPrice := outputPrice
                CachedPrice := cachedPrice
                CacheCreationPrice := cacheCreationPrice },
            none),
            [PreCheckCall.GetModelPrice meta.ModelConfig, PreCheckCall.UnmarshalTTSRequest body,
              PreCheckCall.CountTokenText ttsRequest.Input meta.ActualModel])

/-! ## controller/dashboard.go -/

/-- Modelled from the spec: `model.TimeSpanType` and its constants are declared outside src/;
the aggregator buckets at a fixed span that is hourly or daily. -/
inductive TimeSpanType where
  | TimeSpanDay
  | TimeSpanHour
deriving DecidableEq, Repr

/-- Modelled from the spec: `model.ChartData` is declared outside src/; the data model describes
a point as a timestamp (Unix seconds, the only field `fillGaps` reads) with aggregated metrics.
The metric fields are kept together as one value of a type with a zero, the Go zero value of
the fields a composite literal does not name. -/
structure ChartData (μ : Type) where
  Timestamp : Int
  Metrics : μ
deriving DecidableEq, Repr

/-- The literal `&model.ChartData{Timestamp: ts}`. -/
def ChartData.zeroAt {μ : Type} [Zero μ] (ts : Int) : ChartData μ := ⟨ts, 0⟩

/-- A `time.Time` instant and a `time.Duration`, both counted in nanoseconds. -/
abbrev Time := Int

/-- The duration `time.Second`. -/
def Second : Int := 1000000000

/-- The duration `time.Hour`. -/
def Hour : Int := 3600 * Second

/-- The instant `time.Unix(sec, 0)`. -/
def Time.ofUnix (sec : Int) : Time := sec * Second

/-- The method `t.Unix()`: the whole seconds of the instant, rounded down. -/
def Time.Unix (t : Time) : Int := t / Second

/-- The `switch t` of `fillGaps`: the bucket length as a `time.Duration`. -/
def timeSpanOf (t : TimeSpanType) : Int :=
  match t with
  | .TimeSpanDay => Hour * 24
  | _ => Hour

/-- The conversion `int64(timeSpan.Seconds())`. -/
def spanSeconds (timeSpan : Int) : Int := Int.tdiv timeSpan Second

/-- The loop `for !firstAlignedTime.Add(-timeSpan).Before(start)`, run for at most `fuel`
rounds from `firstAlignedTime`. -/
def alignFirstLoop (timeSpan : Int) (start : Time) : Nat → Time → Time
  | 0, firstAlignedTime => firstAlignedTime
  | fuel + 1, firstAlignedTime =>
    if ¬ (firstAlignedTime + (-timeSpan) < start) then
      alignFirstLoop timeSpan start fuel (firstAlignedTime + (-timeSpan))
    else firstAlignedTime

/-- The first alignment loop with the number of rounds it needs: one bucket is subtracted per
round while the result stays at or after `start` (see `alignFirst_exit`). -/
def alignFirst (timeSpan : Int) (start firstPoint : Time) : Time :=
  alignFirstLoop timeSpan start ((firstPoint - start) / timeSpan).toNat firstPoint

/-- The loop `for !lastAlignedTime.Add(timeSpan).After(end)`, run for at most `fuel` rounds. -/
def alignLastLoop (timeSpan : Int) (end_ : Time) : Nat → Time → Time
  | 0, lastAlignedTime => lastAlignedTime
  | fuel + 1, lastAlignedTime =>
    if ¬ (lastAlignedTime + timeSpan > end_) then
      alignLastLoop timeSpan end_ fuel (lastAlignedTime + timeSpan)
    else lastAlignedTime

/-- The second alignment loop with the number of rounds it needs (see `alignLast_exit`). -/
def alignLast (timeSpan : Int) (end_ lastPoint : Time) : Time :=
  alignLastLoop timeSpan end_ ((end_ - lastPoint) / timeSpan).toNat lastPoint

/-- The loop `for j := ...; j < curr.Timestamp; j += span` that fills a gap of 2 or 3 buckets,
run for at most `fuel` rounds from `j`. -/
def fillLoop {μ : Type} [Zero μ] (span currTs : Int) : Nat → Int → List (ChartData μ)
  | 0, _ => []
  | fuel + 1, j =>
    if j < currTs then ChartData.zeroAt j :: fillLoop span currTs fuel (j + span) else []

/-- What round `i` of the main loop of `fillGaps` appends to `result`, `n` being `len(data)`
after the two alignment steps. -/
def fillStep {μ : Type} [Zero μ] (span : Int) (firstIsZero lastIsZero : Bool) (n i : Nat)
    (prev curr : ChartData μ) : List (ChartData μ) :=
  let hourDiff := Int.tdiv (curr.Timestamp - prev.Timestamp) span
  if hourDiff ≤ 1 then
    [curr]
  else if hourDiff > 3 then
    (if i ≠ 1 ∨ (i = 1 ∧ !firstIsZero) then [ChartData.zeroAt (prev.Timestamp + span)] else [])
      ++ (if i ≠ n - 1 ∨ (i = n - 1 ∧ !lastIsZero) then
            [ChartData.zeroAt (curr.Timestamp - span)] else [])
      ++ [curr]
  else
    fillLoop span curr.Timestamp hourDiff.toNat (prev.Timestamp + span) ++ [curr]

/-- The main loop of `fillGaps` from round `i` on: `prev` is `data[i-1]` and the list is
`data[i:]`. -/
def fillWalk {μ : Type} [Zero μ] (span : Int) (firstIsZero lastIsZero : Bool) (n : Nat) :
    Nat → ChartData μ → List (ChartData μ) → List (ChartData μ)
  | _, _, [] => []
  | i, prev, curr :: rest =>
    fillStep span firstIsZero lastIsZero n i prev curr
      ++ fillWalk span firstIsZero lastIsZero n (i + 1) curr rest

/-- The step "Handle first point" of `fillGaps` (a no-op on the empty slice, which `fillGaps`
has returned before): the data, with a zero point at the aligned time put in front when that
time differs from the first point, and the flag `firstIsZero`. -/
def withLeading {μ : Type} [Zero μ] (timeSpan : Int) (start : Time) (data : List (ChartData μ)) :
    List (ChartData μ) × Bool :=
  match data with
  | [] => (data, false)
  | d0 :: _ =>
    let firstPoint := Time.ofUnix d0.Timestamp
    let firstAlignedTime := alignFirst timeSpan start firstPoint
    if firstAlignedTime ≠ firstPoint then
      (ChartData.zeroAt firstAlignedTime.Unix :: data, true)
    else (data, false)

/-- The step "Handle last point" of `fillGaps`: the data, with a zero point at the aligned time
appended when that time differs from the last point, and the flag `lastIsZero`. -/
def withTrailing {μ : Type} [Zero μ] (timeSpan : Int) (end_ : Time) (data : List (ChartData μ)) :
    List (ChartData μ) × Bool :=
  match data.getLast? with
  | none => (data, false)
  | some dl =>
    let lastPoint := Time.ofUnix dl.Timestamp
    let lastAlignedTime := alignLast timeSpan end_ lastPoint
    if lastAlignedTime ≠ lastPoint then
      (data ++ [ChartData.zeroAt lastAlignedTime.Unix], true)
    else (data, false)

/-- The sequence the main loop of `fillGaps` walks: the input plus any synthesized leading and
trailing point. -/
def walked {μ : Type} [Zero μ] (data : List (ChartData μ)) (start end_ : Time)
    (t : TimeSpanType) : List (ChartData μ) :=
  (withTrailing (timeSpanOf t) end_ (withLeading (timeSpanOf t) start data).1).1

/-- The function `fillGaps(data, start, end, t)`. -/
def fillGaps {μ : Type} [Zero μ] (data : List (ChartData μ)) (start end_ : Time)
    (t : TimeSpanType) : List (ChartData μ) :=
  match data with
  | [] => data
  | _ :: _ =>
    let timeSpan := timeSpanOf t
    let (data, firstIsZero) := withLeading timeSpan start data
    let (data, lastIsZero) := withTrailing timeSpan end_ data
    match data with
    | [] => []
    | r0 :: rest =>
      r0 :: fillWalk (spanSeconds timeSpan) firstIsZero lastIsZero data.length 1 r0 rest

/-- The number of whole buckets between two points, as `fillGaps` counts them: the timestamp
difference divided by the bucket length in seconds, rounded toward zero. -/
def bucketsApart {μ : Type} (t : TimeSpanType) (prev curr : ChartData μ) : Int :=
  Int.tdiv (curr.Timestamp - prev.Timestamp) (spanSeconds (timeSpanOf t))

/-- The timestamps of a series. -/
def timestamps {μ : Type} (data : List (ChartData μ)) : List Int := data.map (·.Timestamp)

/-- A series with the given timestamps, counted in hours, each point with metric value 1. -/
def hourPoints (hours : List Int) : List (ChartData Nat) :=
  hours.map (fun h => ⟨h * 3600, 1⟩)

/-- Go `t.AddDate(0, 0, days)` in a location without zone transitions (UTC, or any fixed
offset): every calendar day is 24 hours long. -/
def addDays (t : Time) (days : Int) : Time := t + days * (24 * Hour)

/-- The function `getDashboardTime(t)`, returning `(start, end, timeSpan)`.  The reading of the
clock `time.Now()` is the argument `now`, and the calendar arithmetic of the standard library,
`AddDate(years, months, days)`, is passed in. -/
def getDashboardTime (now : Time) (AddDate : Time → Int → Int → Int → Time) (t : String) :
    Time × Time × TimeSpanType :=
  let end_ := now
  if t = "month" then (AddDate end_ 0 0 (-30), end_, TimeSpanType.TimeSpanDay)
  else if t = "two_week" then (AddDate end_ 0 0 (-15), end_, TimeSpanType.TimeSpanDay)
  else if t = "week" then (AddDate end_ 0 0 (-7), end_, TimeSpanType.TimeSpanDay)
  else (AddDate end_ 0 0 (-1), end_, TimeSpanType.TimeSpanHour)

/-- The flag `firstIsZero` of `fillGaps`: whether a leading point was synthesized. -/
def firstIsZero {μ : Type} [Zero μ] (data : List (ChartData μ)) (start : Time)
    (t : TimeSpanType) : Bool :=
  (withLeading (timeSpanOf t) start data).2

/-- The flag `lastIsZero` of `fillGaps`: whether a trailing point was synthesized. -/
def lastIsZero {μ : Type} [Zero μ] (data : List (ChartData μ)) (start end_ : Time)
    (t : TimeSpanType) : Bool :=
  (withTrailing (timeSpanOf t) end_ (withLeading (timeSpanOf t) start data).1).2

/-! ### The per-gap rule as the specification words it -/

/-- The per-gap rule in the words of the specification, for one pair of consecutive walked
points: with `d` the timestamp difference divided by the bucket length, rounded down, nothing
is inserted when `d ≤ 1`; when `d` is 2 or 3, a zero point at each `prev + k * bucket`, `k` from
1 on, that is strictly below `curr`; when `d > 3`, the two zero points `prev + bucket` and
`curr - bucket`, the first left out for the first pair after a synthesized leading point and
the second for the last pair before a synthesized trailing point. -/
def gapRule {μ : Type} [Zero μ] (bucket : Int) (leadingSynthesized trailingSynthesized : Bool)
    (isFirstPair isLastPair : Bool) (prev curr : ChartData μ) : List (ChartData μ) :=
  let d := (curr.Timestamp - prev.Timestamp) / bucket
  if d ≤ 1 then []
  else if d ≤ 3 then
    ((List.range d.toNat).map
        (fun k : Nat =>
          (ChartData.zeroAt (prev.Timestamp + ((k : Int) + 1) * bucket) : ChartData μ))).filter
      (fun y => y.Timestamp < curr.Timestamp)
  else
    (if isFirstPair ∧ leadingSynthesized then [] else [ChartData.zeroAt (prev.Timestamp + bucket)])
      ++ (if isLastPair ∧ trailingSynthesized then []
          else [ChartData.zeroAt (curr.Timestamp - bucket)])

/-- A sequence with `gap k prev curr` put between its `k`-th pair of neighbours `prev`, `curr`
(pairs counted from `k`), every point of the sequence kept in place. -/
def insertGaps {α : Type} (gap : Nat → α → α → List α) : Nat → α → List α → List α
  | _, _, [] => []
  | k, prev, curr :: rest => gap k prev curr ++ curr :: insertGaps gap (k + 1) curr rest

/-- The result the specification describes: the walked sequence with the points of `gapRule`
between each pair of neighbours; the first pair has number 0 and the last pair is the one
whose number plus 2 is the length of the walked sequence. -/
def fillGapsByRule {μ : Type} [Zero μ] (data : List (ChartData μ)) (start end_ : Time)
    (t : TimeSpanType) : List (ChartData μ) :=
  match walked data start end_ t with
  | [] => []
  | w0 :: ws =>
    w0 :: insertGaps
      (fun k prev curr =>
        gapRule (spanSeconds (timeSpanOf t)) (firstIsZero data start t)
          (lastIsZero data start end_ t) (decide (k = 0)) (decide (k + 2 = ws.length + 1))
          prev curr)
      0 w0 ws

/-! ## Sample configurations used by the instance theorems -/

/-- A stand-in for the case table above ASCII in the instance theorems: the two code points
whose lower case is an ASCII letter, the Kelvin sign U+212A and the dotted capital I U+0130,
are mapped as the standard library maps them, and every other code point is left as it is. -/
def sampleUnicodeLower (r : Char) : Char :=
  if r = Char.ofNat 0x212A then 'k' else if r = Char.ofNat 0x0130 then 'i' else r

/-- A middleware configuration with admin key `adm`, no internal token, one stored token `tok`
(key `k1`, group `g1`, no subnets) and the group `g1` in status disabled. -/
def sampleEnv : Env where
  AdminKey := "adm"
  InternalToken := ""
  ValidateAndGetToken := fun key =>
    if key = "k1" then .ok { Group := "g1", Key := "k1", Name := "tok", ID := 7 }
    else .error "token not found"
  IsIPInSubnets := fun _ _ => .ok true
  CacheGetGroup := fun id =>
    if id = "g1" then .ok { ID := "g1", Status := GroupStatusDisabled }
    else .error "group not found"
  LoadModelCaches :=
    { EnabledModels := ["gpt-4", "gpt-3.5"]
      EnabledModelsMap := [("gpt-4", ⟨"gpt-4", 1, "openai"⟩), ("gpt-3.5", ⟨"gpt-3.5", 1, "openai"⟩)] }

/-- The sample configuration with the admin key `sk-admin`. -/
def sampleEnvSk : Env := { sampleEnv with AdminKey := "sk-admin" }

/-- A TTS configuration in which no model has a price and no body can be parsed. -/
def sampleTTSEnv (billing : Bool) : TTSEnv Int where
  GetBillingEnabled := billing
  GetModelPrice := fun _ => (0, 0, 0, 0, false)
  UnmarshalTTSRequest := fun _ => .error "unexpected end of JSON input"
  CountTokenText := fun text _ => text.length

/-- A request meta for the model `tts-1`. -/
def sampleMeta : Meta := ⟨⟨"tts-1", 6, "openai"⟩, "tts-1", "tts-1"⟩

/-! # Theorems -/

/-! ## Model-name resolution -/

theorem Cut_spark (s : String) : Cut ("spark-" ++ s) '-' = some ("spark", s) := by
  simp [Cut, cutChars]

theorem spark_not_direct (unicodeLower : Char → Char) (s : String) :
    ToLower unicodeLower ("spark-" ++ s) ∉ directDomains := by
  simp [ToLower, runeToLower, directDomains, String.ext_iff]

theorem getXunfeiDomain_spark (unicodeLower : Char → Char) (s : String) :
    getXunfeiDomain unicodeLower ("spark-" ++ s) = sparkAlias (ToLower unicodeLower s) := by
  unfold getXunfeiDomain
  rw [if_neg (spark_not_direct unicodeLower s), Cut_spark]

/-- C4 (evaluation at the failing input): the direct-domain branch hands back the input as it
was spelled.  For `4.0ultra`, the label the source itself compares with, the result is
`4.0ultra` with no error, which is none of the six canonical identifiers, while the alias branch
answers `4.0Ultra` for the same model.  The inputs are ASCII, so this holds whatever the case
table above ASCII is. -/
theorem getXunfeiDomain_direct_returns_input (unicodeLower : Char → Char) :
    getXunfeiDomain unicodeLower "4.0ultra" = ("4.0ultra", none) ∧
      "4.0ultra" ∉ canonicalDomains ∧
      getXunfeiDomain unicodeLower "spark-4.0-ultra" = ("4.0Ultra", none) ∧
      getXunfeiDomain unicodeLower "LITE" = ("LITE", none) ∧ "LITE" ∉ canonicalDomains :=
  ⟨rfl, by decide, rfl, rfl, by decide⟩

/-- C5: for every spelling `s` of an alias, whatever its letter case, `spark-` followed by `s`
resolves to the alias's domain with no error (lite, pro, pro-128k, max, max-32k, 4.0-ultra give
lite, generalv3, pro-128k, generalv3.5, max-32k, 4.0Ultra), and `spark-ultra-9000` yields the
error `invalid model name` with an empty result.  Letter case is what `strings.ToLower`
removes, with whatever case table the library has above ASCII. -/
theorem getXunfeiDomain_alias_table (unicodeLower : Char → Char) :
    (∀ s, ToLower unicodeLower s = "lite" →
      getXunfeiDomain unicodeLower ("spark-" ++ s) = ("lite", none)) ∧
    (∀ s, ToLower unicodeLower s = "pro" →
      getXunfeiDomain unicodeLower ("spark-" ++ s) = ("generalv3", none)) ∧
    (∀ s, ToLower unicodeLower s = "pro-128k" →
      getXunfeiDomain unicodeLower ("spark-" ++ s) = ("pro-128k", none)) ∧
    (∀ s, ToLower unicodeLower s = "max" →
      getXunfeiDomain unicodeLower ("spark-" ++ s) = ("generalv3.5", none)) ∧
    (∀ s, ToLower unicodeLower s = "max-32k" →
      getXunfeiDomain unicodeLower ("spark-" ++ s) = ("max-32k", none)) ∧
    (∀ s, ToLower unicodeLower s = "4.0-ultra" →
      getXunfeiDomain unicodeLower ("spark-" ++ s) = ("4.0Ultra", none)) ∧
    getXunfeiDomain unicodeLower "spark-ultra-9000" = ("", some "invalid model name") := by
  refine ⟨?_, ?_, ?_, ?_, ?_, ?_, rfl⟩ <;>
    · intro s hs
      rw [getXunfeiDomain_spark, hs]
      decide

/-- C5 (instance): the six aliases as written in the claim, mixed-case spellings of two, and
a spelling with the Kelvin sign U+212A, which `strings.ToLower` turns into `k`. -/
theorem getXunfeiDomain_alias_table_witness :
    getXunfeiDomain sampleUnicodeLower "spark-lite" = ("lite", none) ∧
    getXunfeiDomain sampleUnicodeLower "spark-pro" = ("generalv3", none) ∧
    getXunfeiDomain sampleUnicodeLower "spark-pro-128k" = ("pro-128k", none) ∧
    getXunfeiDomain sampleUnicodeLower "spark-max" = ("generalv3.5", none) ∧
    getXunfeiDomain sampleUnicodeLower "spark-max-32k" = ("max-32k", none) ∧
    getXunfeiDomain sampleUnicodeLower "spark-4.0-ultra" = ("4.0Ultra", none) ∧
    getXunfeiDomain sampleUnicodeLower "spark-MAX-32K" = ("max-32k", none) ∧
    getXunfeiDomain sampleUnicodeLower "spark-4.0-Ultra" = ("4.0Ultra", none) ∧
    getXunfeiDomain sampleUnicodeLower "spark-pro-128\u212A" = ("pro-128k", none) :=
  ⟨(getXunfeiDomain_alias_table sampleUnicodeLower).1 "lite" (by decide),
   (getXunfeiDomain_alias_table sampleUnicodeLower).2.1 "pro" (by decide),
   (getXunfeiDomain_alias_table sampleUnicodeLower).2.2.1 "pro-128k" (by decide),
   (getXunfeiDomain_alias_table sampleUnicodeLower).2.2.2.1 "max" (by decide),
   (getXunfeiDomain_alias_table sampleUnicodeLower).2.2.2.2.1 "max-32k" (by decide),
   (getXunfeiDomain_alias_table sampleUnicodeLower).2.2.2.2.2.1 "4.0-ultra" (by decide),
   (getXunfeiDomain_alias_table sampleUnicodeLower).2.2.2.2.1 "MAX-32K" (by decide),
   (getXunfeiDomain_alias_table sampleUnicodeLower).2.2.2.2.2.1 "4.0-Ultra" (by decide),
   (getXunfeiDomain_alias_table sampleUnicodeLower).2.2.1 "pro-128\u212A" (by decide)⟩

/-! ## Authentication middleware -/

theorem sliceFilter_eq_filter {T : Type} (s : List T) (fn : T → Bool) :
    sliceFilter s fn = s.filter fn := by
  induction s with
  | nil => rfl
  | cons v rest ih =>
    by_cases h : fn v = true <;> simp [sliceFilter, List.filter, h, ih]

theorem lookup_isSome_iff (m : String) (kvs : List (String × ModelConfig)) :
    (kvs.lookup m).isSome = true ↔ m ∈ kvs.map Prod.fst := by
  induction kvs with
  | nil => simp
  | cons kv rest ih =>
    obtain ⟨k, v⟩ := kv
    by_cases h : m = k
    · subst h; simp [List.lookup]
    · have hb : (m == k) = false := by simpa using h
      simp [List.lookup, hb, ih, h]

theorem hasKey_iff (mc : ModelCaches) (m : String) :
    mc.hasKey m = true ↔ m ∈ mc.EnabledModelsMap.map Prod.fst :=
  lookup_isSome_iff m mc.EnabledModelsMap

/-- C1: a request whose credential is neither the admin key nor the internal token, whose token
validates and passes the subnet check (no subnets listed, or the check answers yes), and whose
group loads with a status that is neither enabled nor internal, is answered 403 with the message
`group is disabled` and aborted; the context keys for group, token and model snapshot and the
next-handler flag are left as they were. -/
theorem TokenAuth_disabled_group (env : Env) (c : Context) (token : TokenCache)
    (group : GroupCache)
    (hcred : ¬ ((env.AdminKey ≠ "" ∧ env.AdminKey = credential c) ∨
      (env.InternalToken ≠ "" ∧ env.InternalToken = credential c)))
    (htoken : env.ValidateAndGetToken (credential c) = .ok token)
    (hsubnet : token.Subnets.length = 0 ∨
      env.IsIPInSubnets c.ClientIP token.Subnets = .ok true)
    (hgroup : env.CacheGetGroup token.Group = .ok group)
    (hstatus : group.Status ≠ GroupStatusEnabled ∧ group.Status ≠ GroupStatusInternal) :
    (TokenAuth env c).status = some StatusForbidden ∧
      (TokenAuth env c).message = "group is disabled" ∧
      (TokenAuth env c).aborted = true ∧
      (TokenAuth env c).nextCalled = c.nextCalled ∧
      (TokenAuth env c).Group = c.Group ∧
      (TokenAuth env c).Token = c.Token ∧
      (TokenAuth env c).ModelCaches = c.ModelCaches := by
  have hres : ∀ c1 : Context, c1.ClientIP = c.ClientIP →
      TokenAuth.resolveGroup env c1 token false
        = abortLogWithMessage (c1.call (Call.CacheGetGroup token.Group)) StatusForbidden
            "group is disabled" := by
    intro c1 _
    simp [TokenAuth.resolveGroup, hgroup, hstatus]
  have hsub : ∀ c1 : Context, c1.ClientIP = c.ClientIP →
      ∃ c2 : Context, c2.nextCalled = c1.nextCalled ∧ c2.Group = c1.Group ∧
        c2.Token = c1.Token ∧ c2.ModelCaches = c1.ModelCaches ∧
        TokenAuth.checkSubnets env c1 token false
          = abortLogWithMessage c2 StatusForbidden "group is disabled" := by
    intro c1 hip
    by_cases hlen : token.Subnets.length > 0
    · have hok : env.IsIPInSubnets c.ClientIP token.Subnets = .ok true := by
        rcases hsubnet with h | h
        · omega
        · exact h
      refine ⟨(c1.call (Call.IsIPInSubnets c1.ClientIP token.Subnets)).call
        (Call.CacheGetGroup token.Group), rfl, rfl, rfl, rfl, ?_⟩
      simp [TokenAuth.checkSubnets, hlen, Context.call, hip, hok, hres]
    · refine ⟨c1.call (Call.CacheGetGroup token.Group), rfl, rfl, rfl, rfl, ?_⟩
      simp [TokenAuth.checkSubnets, hlen, hres c1 hip]
  obtain ⟨c2, h1, h2, h3, h4, h5⟩ := hsub (c.call (Call.ValidateAndGetToken (credential c))) rfl
  have hT : TokenAuth env c = abortLogWithMessage c2 StatusForbidden "group is disabled" := by
    unfold TokenAuth
    simp only [if_neg hcred, htoken]
    exact h5
  rw [hT]
  exact ⟨rfl, rfl, rfl, h1, h2, h3, h4⟩

/-- C1 (instance): the sample configuration, whose group `g1` is disabled, with the header
`Bearer sk-k1`. -/
theorem TokenAuth_disabled_group_witness :
    (TokenAuth sampleEnv { Authorization := "Bearer sk-k1" }).status = some StatusForbidden ∧
      (TokenAuth sampleEnv { Authorization := "Bearer sk-k1" }).message = "group is disabled" ∧
      (TokenAuth sampleEnv { Authorization := "Bearer sk-k1" }).aborted = true ∧
      (TokenAuth sampleEnv { Authorization := "Bearer sk-k1" }).nextCalled = false ∧
      (TokenAuth sampleEnv { Authorization := "Bearer sk-k1" }).Group = none ∧
      (TokenAuth sampleEnv { Authorization := "Bearer sk-k1" }).Token = none ∧
      (TokenAuth sampleEnv { Authorization := "Bearer sk-k1" }).ModelCaches = none :=
  TokenAuth_disabled_group sampleEnv { Authorization := "Bearer sk-k1" }
    { Group := "g1", Key := "k1", Name := "tok", ID := 7 } { ID := "g1", Status := GroupStatusDisabled }
    (by decide) rfl (Or.inl rfl) rfl (by decide)


/-- C2: when the credential equals a non-empty admin key or a non-empty internal token, the
request is admitted: the next handler is called, no response is written and nothing is aborted,
the stored group has status internal, the stored token's allowed models are the snapshot's full
enabled-model list, the stored snapshot is the current one, and the only collaborator consulted
is the snapshot loader (no token store, subnet check or group store call enters the trace). -/
theorem TokenAuth_internal_credential (env : Env) (c : Context)
    (hcred : (env.AdminKey ≠ "" ∧ credential c = env.AdminKey) ∨
      (env.InternalToken ≠ "" ∧ credential c = env.InternalToken)) :
    (TokenAuth env c).nextCalled = true ∧
      (TokenAuth env c).aborted = c.aborted ∧
      (TokenAuth env c).status = c.status ∧
      (TokenAuth env c).message = c.message ∧
      (TokenAuth env c).Group = some { Status := GroupStatusInternal } ∧
      (TokenAuth env c).Token = some { Models := env.LoadModelCaches.EnabledModels } ∧
      (TokenAuth env c).ModelCaches = some env.LoadModelCaches ∧
      (TokenAuth env c).trace = c.trace ++ [Call.LoadModelCaches] := by
  have hc : (env.AdminKey ≠ "" ∧ env.AdminKey = credential c) ∨
      (env.InternalToken ≠ "" ∧ env.InternalToken = credential c) := by
    rcases hcred with ⟨h1, h2⟩ | ⟨h1, h2⟩
    · exact Or.inl ⟨h1, h2.symm⟩
    · exact Or.inr ⟨h1, h2.symm⟩
  have hT : TokenAuth env c = TokenAuth.storeAndNext env c {} { Status := GroupStatusInternal } := by
    unfold TokenAuth
    simp only [if_pos hc]
    simp [TokenAuth.checkSubnets, TokenAuth.resolveGroup]
  rw [hT]
  simp [TokenAuth.storeAndNext, Context.Next, Context.call, storeTokenModels]

/-- C2 (instance): the sample configuration with the admin key sent as `Bearer sk-adm`. -/
theorem TokenAuth_internal_credential_witness :
    (TokenAuth sampleEnv { Authorization := "Bearer sk-adm" }).nextCalled = true ∧
      (TokenAuth sampleEnv { Authorization := "Bearer sk-adm" }).aborted = false ∧
      (TokenAuth sampleEnv { Authorization := "Bearer sk-adm" }).status = none ∧
      (TokenAuth sampleEnv { Authorization := "Bearer sk-adm" }).message = "" ∧
      (TokenAuth sampleEnv { Authorization := "Bearer sk-adm" }).Group
        = some { Status := GroupStatusInternal } ∧
      (TokenAuth sampleEnv { Authorization := "Bearer sk-adm" }).Token
        = some { Models := ["gpt-4", "gpt-3.5"] } ∧
      (TokenAuth sampleEnv { Authorization := "Bearer sk-adm" }).ModelCaches
        = some sampleEnv.LoadModelCaches ∧
      (TokenAuth sampleEnv { Authorization := "Bearer sk-adm" }).trace
        = [Call.LoadModelCaches] :=
  TokenAuth_internal_credential sampleEnv { Authorization := "Bearer sk-adm" }
    (Or.inl ⟨by decide, by decide⟩)

/-- C3: with an empty allow-list the token receives the snapshot's full `EnabledModels` list;
with a non-empty one it receives exactly the entries of the original allow-list that are keys of
`EnabledModelsMap`, in their original order, so that every name of the result is in the original
allow-list and is an enabled key; the allow-list `[gpt-4]` with the enabled models `gpt-4` and
`gpt-3.5` gives `[gpt-4]`. -/
theorem storeTokenModels_allow_list (token : TokenCache) (mc : ModelCaches) :
    (token.Models = [] → (storeTokenModels token mc).Models = mc.EnabledModels) ∧
    (token.Models ≠ [] →
      (storeTokenModels token mc).Models
          = token.Models.filter (fun m => decide (m ∈ mc.EnabledModelsMap.map Prod.fst)) ∧
        List.Sublist (storeTokenModels token mc).Models token.Models ∧
        ∀ m ∈ (storeTokenModels token mc).Models,
          m ∈ token.Models ∧ m ∈ mc.EnabledModelsMap.map Prod.fst) ∧
    (storeTokenModels { Models := ["gpt-4"] } sampleEnv.LoadModelCaches).Models = ["gpt-4"] := by
  refine ⟨?_, ?_, by decide⟩
  · intro h
    simp [storeTokenModels, h]
  · intro h
    have hlen : ¬ token.Models.length = 0 := by
      simpa [List.length_eq_zero] using h
    have hfilter : (storeTokenModels token mc).Models
        = token.Models.filter (fun m => decide (m ∈ mc.EnabledModelsMap.map Prod.fst)) := by
      simp only [storeTokenModels, if_neg hlen, sliceFilter_eq_filter]
      apply List.filter_congr
      intro m _
      by_cases hm : m ∈ mc.EnabledModelsMap.map Prod.fst
      · simp only [hm, decide_True]; exact (hasKey_iff mc m).2 hm
      · simp only [hm, decide_False]
        cases hk : mc.hasKey m
        · rfl
        · exact absurd ((hasKey_iff mc m).1 hk) hm
    refine ⟨hfilter, ?_, ?_⟩
    · rw [hfilter]; exact List.filter_sublist _
    · intro m hm
      rw [hfilter, List.mem_filter] at hm
      exact ⟨hm.1, by simpa using hm.2⟩

/-- C3 (instance): a token allowing `gpt-4` and the disabled `gpt-5` keeps only `gpt-4`, and a
token with no allow-list receives both enabled models. -/
theorem storeTokenModels_allow_list_witness :
    (storeTokenModels { Models := ["gpt-5", "gpt-4"] } sampleEnv.LoadModelCaches).Models
        = ["gpt-4"] ∧
      (storeTokenModels { Models := [] } sampleEnv.LoadModelCaches).Models
        = ["gpt-4", "gpt-3.5"] :=
  ⟨((storeTokenModels_allow_list { Models := ["gpt-5", "gpt-4"] }
      sampleEnv.LoadModelCaches).2.1 (by decide)).1.trans (by decide),
   (storeTokenModels_allow_list { Models := [] } sampleEnv.LoadModelCaches).1 rfl⟩


/-! ## TTS pre-check -/

/-- C9: with billing disabled the pre-check returns the all-zero estimate (zero token counts,
zero prices) and no error, whatever the model config and the request body, and its call trace is
empty: neither the price lookup nor the body parse is made. -/
theorem preCheck_billing_disabled {Price : Type} [Zero Price] (env : TTSEnv Price) (meta : Meta)
    (body : String) (hbilling : env.GetBillingEnabled = false) :
    RelayTTSHelper.preCheck env meta body
      = ((some
            { InputTokens := 0, OutputTokens := 0, CachedTokens := 0, CacheCreationTokens := 0,
              InputPrice := 0, OutputPrice := 0, CachedPrice := 0, CacheCreationPrice := 0 },
          none), []) := by
  simp [RelayTTSHelper.preCheck, hbilling]

/-- C9 (instance): billing disabled, a model without a price and a body that does not parse. -/
theorem preCheck_billing_disabled_witness :
    RelayTTSHelper.preCheck (sampleTTSEnv false) sampleMeta "not json"
      = ((some
            { InputTokens := 0, OutputTokens := 0, CachedTokens := 0, CacheCreationTokens := 0,
              InputPrice := 0, OutputPrice := 0, CachedPrice := 0, CacheCreationPrice := 0 },
          none), []) :=
  preCheck_billing_disabled (sampleTTSEnv false) sampleMeta "not json" rfl

/-- C10: with billing enabled, (1) when the price lookup reports no price the pre-check returns
no estimate and the error `model price not found: ` followed by the origin model name, for every
body, and the trace holds the price lookup only (the body is not parsed); (2) when a price
exists and parsing the request fails, that error is returned unchanged with no estimate; (3)
when a price exists and the request parses, the estimate carries the four looked-up prices, the
token count of the input text for the actual model, and zero for the other token counts. -/
theorem preCheck_billing_enabled {Price : Type} [Zero Price] (env : TTSEnv Price) (meta : Meta)
    (body : String) (hbilling : env.GetBillingEnabled = true) :
    ((env.GetModelPrice meta.ModelConfig).2.2.2.2 = false →
      RelayTTSHelper.preCheck env meta body
        = ((none, some ("model price not found: " ++ meta.OriginModel)),
            [PreCheckCall.GetModelPrice meta.ModelConfig])) ∧
    (∀ err, (env.GetModelPrice meta.ModelConfig).2.2.2.2 = true →
      env.UnmarshalTTSRequest body = .error err →
      (RelayTTSHelper.preCheck env meta body).1 = (none, some err)) ∧
    (∀ ttsRequest, (env.GetModelPrice meta.ModelConfig).2.2.2.2 = true →
      env.UnmarshalTTSRequest body = .ok ttsRequest →
      (RelayTTSHelper.preCheck env meta body).1
        = (some
            { InputTokens := env.CountTokenText ttsRequest.Input meta.ActualModel,
              OutputTokens := 0, CachedTokens := 0, CacheCreationTokens := 0,
              InputPrice := (env.GetModelPrice meta.ModelConfig).1,
              OutputPrice := (env.GetModelPrice meta.ModelConfig).2.1,
              CachedPrice := (env.GetModelPrice meta.ModelConfig).2.2.1,
              CacheCreationPrice := (env.GetModelPrice meta.ModelConfig).2.2.2.1 },
          none)) := by
  rcases hp : env.GetModelPrice meta.ModelConfig with ⟨ip, op, cp, ccp, ok⟩
  refine ⟨?_, ?_, ?_⟩
  · intro hok
    simp at hok
    simp [RelayTTSHelper.preCheck, hbilling, hp, hok]
  · intro err hok herr
    simp at hok
    simp [RelayTTSHelper.preCheck, hbilling, hp, hok, herr]
  · intro req hok hreq
    simp at hok
    simp [RelayTTSHelper.preCheck, hbilling, hp, hok, hreq]

/-- C10 (instance): billing enabled and no price for `tts-1`: the error names the model and
the trace shows the price lookup only. -/
theorem preCheck_billing_enabled_witness :
    RelayTTSHelper.preCheck (sampleTTSEnv true) sampleMeta "not json"
      = ((none, some "model price not found: tts-1"),
          [PreCheckCall.GetModelPrice sampleMeta.ModelConfig]) :=
  (preCheck_billing_enabled (sampleTTSEnv true) sampleMeta "not json" rfl).1 rfl


/-! ## Dashboard gap filling: arithmetic of buckets -/

theorem tdiv_le_iff {x s k : Int} (hs : 0 < s) (hk : 0 ≤ k) :
    Int.tdiv x s ≤ k ↔ x < (k + 1) * s := by
  rcases le_or_lt 0 x with hx | hx
  · rw [Int.tdiv_eq_ediv hx (le_of_lt hs), ← Int.lt_add_one_iff]
    exact Int.ediv_lt_iff_lt_mul hs
  · have h1 : Int.tdiv x s ≤ 0 := by
      have h2 : 0 ≤ Int.tdiv (-x) s := Int.tdiv_nonneg (by omega) (le_of_lt hs)
      rw [Int.neg_tdiv] at h2
      omega
    have h3 : 0 < (k + 1) * s := Int.mul_pos (by omega) hs
    constructor
    · intro _; omega
    · intro _; omega

theorem timeSpanOf_cases (t : TimeSpanType) :
    (timeSpanOf t = 3600000000000 ∧ spanSeconds (timeSpanOf t) = 3600) ∨
      (timeSpanOf t = 86400000000000 ∧ spanSeconds (timeSpanOf t) = 86400) := by
  cases t
  · right; decide
  · left; decide

theorem spanSeconds_pos (t : TimeSpanType) : 0 < spanSeconds (timeSpanOf t) := by
  rcases timeSpanOf_cases t with ⟨_, h⟩ | ⟨_, h⟩ <;> rw [h] <;> decide

theorem timeSpanOf_eq (t : TimeSpanType) :
    timeSpanOf t = spanSeconds (timeSpanOf t) * 1000000000 := by
  rcases timeSpanOf_cases t with ⟨h1, h2⟩ | ⟨h1, h2⟩ <;> rw [h2, h1] <;> decide

/-! ### The two alignment loops -/

/-- The first alignment loop subtracts a whole number of buckets. -/
theorem alignFirstLoop_eq (T start : Int) (fuel : Nat) (x : Int) :
    ∃ k : Nat, alignFirstLoop T start fuel x = x - k * T := by
  induction fuel generalizing x with
  | zero => exact ⟨0, by simp [alignFirstLoop]⟩
  | succ n ih =>
    unfold alignFirstLoop
    split
    · obtain ⟨k, hk⟩ := ih (x + -T)
      exact ⟨k + 1, by rw [hk]; push_cast; ring⟩
    · exact ⟨0, by simp⟩

/-- With the fuel `alignFirst` gives it, the first alignment loop stops because its condition
fails, not because the fuel is used up: once more bucket back would lie before `start`. -/
theorem alignFirstLoop_exit (T start : Int) (hT : 0 < T) (fuel : Nat) (x : Int)
    (hfuel : (x - start) / T ≤ fuel) :
    alignFirstLoop T start fuel x + -T < start := by
  induction fuel generalizing x with
  | zero =>
    show x + -T < start
    have h : (x - start) / T < 1 := by simpa using Int.lt_add_one_iff.2 hfuel
    have := (Int.ediv_lt_iff_lt_mul hT).1 h
    omega
  | succ n ih =>
    unfold alignFirstLoop
    split
    · apply ih
      have h1 : (x - start) / T < (n : Int) + 1 + 1 := by
        have : (x - start) / T ≤ (n : Int) + 1 := by exact_mod_cast hfuel
        omega
      have h2 := (Int.ediv_lt_iff_lt_mul hT).1 h1
      have h3 : (x + -T - start) / T < (n : Int) + 1 := by
        apply (Int.ediv_lt_iff_lt_mul hT).2
        have : ((n : Int) + 1 + 1) * T = ((n : Int) + 1) * T + T := by ring
        omega
      omega
    · rename_i h
      exact not_not.1 h

theorem alignFirst_exit (T start x : Int) (hT : 0 < T) : alignFirst T start x + -T < start := by
  apply alignFirstLoop_exit T start hT
  exact Int.self_le_toNat _

theorem alignFirstLoop_fix (T start : Int) (fuel : Nat) (x : Int) (h : x + -T < start) :
    alignFirstLoop T start fuel x = x := by
  cases fuel with
  | zero => rfl
  | succ n => simp [alignFirstLoop, h]

/-- The second alignment loop adds a whole number of buckets. -/
theorem alignLastLoop_eq (T stop : Int) (fuel : Nat) (x : Int) :
    ∃ k : Nat, alignLastLoop T stop fuel x = x + k * T := by
  induction fuel generalizing x with
  | zero => exact ⟨0, by simp [alignLastLoop]⟩
  | succ n ih =>
    unfold alignLastLoop
    split
    · obtain ⟨k, hk⟩ := ih (x + T)
      exact ⟨k + 1, by rw [hk]; push_cast; ring⟩
    · exact ⟨0, by simp⟩

/-- With the fuel `alignLast` gives it, the second alignment loop stops because its condition
fails: one more bucket forward would lie after `end`. -/
theorem alignLastLoop_exit (T stop : Int) (hT : 0 < T) (fuel : Nat) (x : Int)
    (hfuel : (stop - x) / T ≤ fuel) :
    alignLastLoop T stop fuel x + T > stop := by
  induction fuel generalizing x with
  | zero =>
    show x + T > stop
    have h : (stop - x) / T < 1 := by simpa using Int.lt_add_one_iff.2 hfuel
    have := (Int.ediv_lt_iff_lt_mul hT).1 h
    omega
  | succ n ih =>
    unfold alignLastLoop
    split
    · apply ih
      have h1 : (stop - x) / T < (n : Int) + 1 + 1 := by
        have : (stop - x) / T ≤ (n : Int) + 1 := by exact_mod_cast hfuel
        omega
      have h2 := (Int.ediv_lt_iff_lt_mul hT).1 h1
      have h3 : (stop - (x + T)) / T < (n : Int) + 1 := by
        apply (Int.ediv_lt_iff_lt_mul hT).2
        have : ((n : Int) + 1 + 1) * T = ((n : Int) + 1) * T + T := by ring
        omega
      omega
    · rename_i h
      exact not_not.1 h

theorem alignLast_exit (T stop x : Int) (hT : 0 < T) : alignLast T stop x + T > stop := by
  apply alignLastLoop_exit T stop hT
  exact Int.self_le_toNat _

theorem alignLastLoop_fix (T stop : Int) (fuel : Nat) (x : Int) (h : x + T > stop) :
    alignLastLoop T stop fuel x = x := by
  cases fuel with
  | zero => rfl
  | succ n => simp [alignLastLoop, h]


/-! ### The fill loop and one round of the main loop -/

section Rounds

variable {μ : Type} [Zero μ]

theorem fillLoop_mem (S c : Int) (hS : 0 < S) (fuel : Nat) (j : Int) :
    ∀ y ∈ (fillLoop S c fuel j : List (ChartData μ)),
      y.Metrics = 0 ∧ j ≤ y.Timestamp ∧ y.Timestamp < c := by
  induction fuel generalizing j with
  | zero => intro y hy; simp [fillLoop] at hy
  | succ n ih =>
    intro y hy
    unfold fillLoop at hy
    split at hy
    · rcases List.mem_cons.1 hy with h | h
      · subst h
        exact ⟨rfl, le_refl _, by assumption⟩
      · obtain ⟨h1, h2, h3⟩ := ih (j + S) y h
        exact ⟨h1, by omega, h3⟩
    · simp at hy

/-- The points the fill loop inserts after `p` are one bucket apart, and the loop has stopped
by its own condition when the fuel covers the gap, so that the point after them is at most one
bucket away as well. -/
theorem fillLoop_chain (S : Int) (hS : 0 < S) (c : ChartData μ) (X : List (ChartData μ))
    (hX : List.Chain (fun a b : ChartData μ => b.Timestamp - a.Timestamp < 2 * S) c X)
    (fuel : Nat) (j : Int) (p : ChartData μ) (hj : j = p.Timestamp + S)
    (hfuel : c.Timestamp < j + fuel * S) :
    List.Chain (fun a b : ChartData μ => b.Timestamp - a.Timestamp < 2 * S) p
      (fillLoop S c.Timestamp fuel j ++ c :: X) := by
  induction fuel generalizing j p with
  | zero =>
    simp only [fillLoop, List.nil_append]
    refine List.Chain.cons ?_ hX
    simp at hfuel
    omega
  | succ n ih =>
    unfold fillLoop
    split
    · rw [List.cons_append]
      refine List.Chain.cons ?_ (ih (j + S) (ChartData.zeroAt j) rfl ?_)
      · show j - p.Timestamp < 2 * S
        omega
      · have : ((n + 1 : Nat) : Int) * S = n * S + S := by push_cast; ring
        omega
    · rw [List.nil_append]
      refine List.Chain.cons ?_ hX
      omega

theorem fillStep_le_one (S : Int) (f l : Bool) (n i : Nat) (prev curr : ChartData μ)
    (h : Int.tdiv (curr.Timestamp - prev.Timestamp) S ≤ 1) :
    fillStep S f l n i prev curr = [curr] := by
  simp [fillStep, h]

theorem fillStep_gt_three (S : Int) (f l : Bool) (n i : Nat) (prev curr : ChartData μ)
    (h : 3 < Int.tdiv (curr.Timestamp - prev.Timestamp) S) :
    fillStep S f l n i prev curr
      = (if i ≠ 1 ∨ (i = 1 ∧ !f) then [ChartData.zeroAt (prev.Timestamp + S)] else [])
        ++ (if i ≠ n - 1 ∨ (i = n - 1 ∧ !l) then [ChartData.zeroAt (curr.Timestamp - S)]
            else [])
        ++ [curr] := by
  have h1 : ¬ Int.tdiv (curr.Timestamp - prev.Timestamp) S ≤ 1 := by omega
  simp only [fillStep, if_neg h1, gt_iff_lt, if_pos h]

theorem fillStep_mid (S : Int) (f l : Bool) (n i : Nat) (prev curr : ChartData μ)
    (h1 : 1 < Int.tdiv (curr.Timestamp - prev.Timestamp) S)
    (h3 : Int.tdiv (curr.Timestamp - prev.Timestamp) S ≤ 3) :
    fillStep S f l n i prev curr
      = fillLoop S curr.Timestamp (Int.tdiv (curr.Timestamp - prev.Timestamp) S).toNat
          (prev.Timestamp + S) ++ [curr] := by
  have h1' : ¬ Int.tdiv (curr.Timestamp - prev.Timestamp) S ≤ 1 := by omega
  have h3' : ¬ Int.tdiv (curr.Timestamp - prev.Timestamp) S > 3 := by omega
  simp only [fillStep, if_neg h1', if_neg h3']

/-- Every round appends `curr` last; what it puts before `curr` are zero points strictly
between `prev` and `curr`, and at most two of them when the pair is more than 3 buckets
apart. -/
theorem fillStep_spec (S : Int) (hS : 0 < S) (f l : Bool) (n i : Nat) (prev curr : ChartData μ) :
    ∃ mid : List (ChartData μ), fillStep S f l n i prev curr = mid ++ [curr] ∧
      (∀ y ∈ mid, y.Metrics = 0 ∧ prev.Timestamp < y.Timestamp ∧ y.Timestamp < curr.Timestamp) ∧
      (3 < Int.tdiv (curr.Timestamp - prev.Timestamp) S → mid.length ≤ 2) := by
  rcases le_or_lt (Int.tdiv (curr.Timestamp - prev.Timestamp) S) 1 with h1 | h1
  · refine ⟨[], by simp [fillStep_le_one S f l n i prev curr h1], by simp, by simp⟩
  · rcases le_or_lt (Int.tdiv (curr.Timestamp - prev.Timestamp) S) 3 with h3 | h3
    · refine ⟨_, fillStep_mid S f l n i prev curr h1 h3, ?_, by omega⟩
      intro y hy
      obtain ⟨a, b, c⟩ := fillLoop_mem S curr.Timestamp hS _ _ y hy
      exact ⟨a, by omega, c⟩
    · have hx : 4 * S ≤ curr.Timestamp - prev.Timestamp := by
        by_contra hcon
        have := (tdiv_le_iff (x := curr.Timestamp - prev.Timestamp) hS (by decide : (0:Int) ≤ 3)).2
          (by omega)
        omega
      refine ⟨_, fillStep_gt_three S f l n i prev curr h3, ?_, ?_⟩
      · intro y hy
        rcases List.mem_append.1 hy with hy | hy
        · split at hy
          · rw [List.mem_singleton] at hy; subst hy
            exact ⟨rfl, by show prev.Timestamp < prev.Timestamp + S; omega,
              by show prev.Timestamp + S < curr.Timestamp; omega⟩
          · simp at hy
        · split at hy
          · rw [List.mem_singleton] at hy; subst hy
            exact ⟨rfl, by show prev.Timestamp < curr.Timestamp - S; omega,
              by show curr.Timestamp - S < curr.Timestamp; omega⟩
          · simp at hy
      · intro _
        rw [List.length_append]
        split <;> split <;> simp

/-- A round on a pair at most 3 buckets apart leaves no two neighbours two or more buckets
apart. -/
theorem fillStep_chain (S : Int) (hS : 0 < S) (f l : Bool) (n i : Nat) (prev curr : ChartData μ)
    (X : List (ChartData μ))
    (h3 : Int.tdiv (curr.Timestamp - prev.Timestamp) S ≤ 3)
    (hX : List.Chain (fun a b : ChartData μ => b.Timestamp - a.Timestamp < 2 * S) curr X) :
    List.Chain (fun a b : ChartData μ => b.Timestamp - a.Timestamp < 2 * S) prev
      (fillStep S f l n i prev curr ++ X) := by
  rcases le_or_lt (Int.tdiv (curr.Timestamp - prev.Timestamp) S) 1 with h1 | h1
  · rw [fillStep_le_one S f l n i prev curr h1]
    refine List.Chain.cons ?_ hX
    have := (tdiv_le_iff (x := curr.Timestamp - prev.Timestamp) hS (by decide : (0:Int) ≤ 1)).1 h1
    omega
  · rw [fillStep_mid S f l n i prev curr h1 h3, List.append_assoc]
    apply fillLoop_chain S hS curr X hX _ _ prev rfl
    have hd : (0 : Int) ≤ Int.tdiv (curr.Timestamp - prev.Timestamp) S := by omega
    have := (tdiv_le_iff (x := curr.Timestamp - prev.Timestamp) hS hd).1 (le_refl _)
    rw [Int.toNat_of_nonneg hd]
    linarith

/-! ### The main loop -/

theorem fillWalk_chain (S : Int) (hS : 0 < S) (f l : Bool) (n : Nat) (ws : List (ChartData μ)) :
    ∀ (i : Nat) (prev : ChartData μ),
      List.Chain (fun a b : ChartData μ => Int.tdiv (b.Timestamp - a.Timestamp) S ≤ 3) prev ws →
      List.Chain (fun a b : ChartData μ => b.Timestamp - a.Timestamp < 2 * S) prev
        (fillWalk S f l n i prev ws) := by
  induction ws with
  | nil => intro i prev _; exact List.Chain.nil
  | cons curr rest ih =>
    intro i prev h
    rw [List.chain_cons] at h
    unfold fillWalk
    exact fillStep_chain S hS f l n i prev curr _ h.1 (ih (i + 1) curr h.2)

theorem fillWalk_id (S : Int) (hS : 0 < S) (f l : Bool) (n : Nat) (ws : List (ChartData μ)) :
    ∀ (i : Nat) (prev : ChartData μ),
      List.Chain (fun a b : ChartData μ => b.Timestamp - a.Timestamp < 2 * S) prev ws →
      fillWalk S f l n i prev ws = ws := by
  induction ws with
  | nil => intro i prev _; rfl
  | cons curr rest ih =>
    intro i prev h
    rw [List.chain_cons] at h
    unfold fillWalk
    have h1 : Int.tdiv (curr.Timestamp - prev.Timestamp) S ≤ 1 :=
      (tdiv_le_iff hS (by decide)).2 (by omega)
    rw [fillStep_le_one S f l n i prev curr h1, ih (i + 1) curr h.2]
    rfl

theorem fillWalk_getLast? (S : Int) (hS : 0 < S) (f l : Bool) (n : Nat)
    (ws : List (ChartData μ)) :
    ∀ (i : Nat) (prev : ChartData μ), (fillWalk S f l n i prev ws).getLast? = ws.getLast? := by
  induction ws with
  | nil => intro i prev; rfl
  | cons curr rest ih =>
    intro i prev
    unfold fillWalk
    obtain ⟨mid, hmid, -, -⟩ := fillStep_spec S hS f l n i prev curr
    rw [hmid, List.getLast?_append, ih (i + 1) curr, List.getLast?_append]
    cases rest with
    | nil => simp
    | cons r rs =>
      rw [List.getLast?_cons_cons, List.getLast?_eq_getLast (r :: rs) (List.cons_ne_nil r rs)]
      rfl

end Rounds


/-! ### The two alignment steps -/

section Alignment

variable {μ : Type} [Zero μ]

/-- The aligned first time is a whole number of buckets before the first point, so it is again
a whole second, and one more bucket back lies before `start`. -/
theorem alignFirst_spec (t : TimeSpanType) (start ts : Int) :
    ∃ k : Nat,
      (alignFirst (timeSpanOf t) start (Time.ofUnix ts)).Unix
          = ts - k * spanSeconds (timeSpanOf t) ∧
        Time.ofUnix (alignFirst (timeSpanOf t) start (Time.ofUnix ts)).Unix
          = alignFirst (timeSpanOf t) start (Time.ofUnix ts) ∧
        (alignFirst (timeSpanOf t) start (Time.ofUnix ts) = Time.ofUnix ts ↔ k = 0) := by
  obtain ⟨k, hk⟩ := alignFirstLoop_eq (timeSpanOf t) start
    ((Time.ofUnix ts - start) / timeSpanOf t).toNat (Time.ofUnix ts)
  have hS := spanSeconds_pos t
  have hT := timeSpanOf_eq t
  refine ⟨k, ?_⟩
  unfold alignFirst
  rw [hk]
  generalize spanSeconds (timeSpanOf t) = S at *
  rw [hT]
  simp only [Time.ofUnix, Time.Unix, Second]
  have e : ts * 1000000000 - (k : Int) * (S * 1000000000) = (ts - k * S) * 1000000000 := by ring
  rw [e, Int.mul_ediv_cancel _ (by decide)]
  refine ⟨rfl, rfl, ?_⟩
  constructor
  · intro h
    have h2 := Int.eq_of_mul_eq_mul_right (by decide) h
    have h0 : (k : Int) * S = 0 := by omega
    rcases Int.mul_eq_zero.1 h0 with h1 | h1
    · exact_mod_cast h1
    · omega
  · intro h
    subst h
    simp

/-- The aligned last time is a whole number of buckets after the last point. -/
theorem alignLast_spec (t : TimeSpanType) (stop ts : Int) :
    ∃ k : Nat,
      (alignLast (timeSpanOf t) stop (Time.ofUnix ts)).Unix
          = ts + k * spanSeconds (timeSpanOf t) ∧
        Time.ofUnix (alignLast (timeSpanOf t) stop (Time.ofUnix ts)).Unix
          = alignLast (timeSpanOf t) stop (Time.ofUnix ts) ∧
        (alignLast (timeSpanOf t) stop (Time.ofUnix ts) = Time.ofUnix ts ↔ k = 0) := by
  obtain ⟨k, hk⟩ := alignLastLoop_eq (timeSpanOf t) stop
    ((stop - Time.ofUnix ts) / timeSpanOf t).toNat (Time.ofUnix ts)
  have hS := spanSeconds_pos t
  have hT := timeSpanOf_eq t
  refine ⟨k, ?_⟩
  unfold alignLast
  rw [hk]
  generalize spanSeconds (timeSpanOf t) = S at *
  rw [hT]
  simp only [Time.ofUnix, Time.Unix, Second]
  have e : ts * 1000000000 + (k : Int) * (S * 1000000000) = (ts + k * S) * 1000000000 := by ring
  rw [e, Int.mul_ediv_cancel _ (by decide)]
  refine ⟨rfl, rfl, ?_⟩
  constructor
  · intro h
    have h2 := Int.eq_of_mul_eq_mul_right (by decide) h
    have h0 : (k : Int) * S = 0 := by omega
    rcases Int.mul_eq_zero.1 h0 with h1 | h1
    · exact_mod_cast h1
    · omega
  · intro h
    subst h
    simp

theorem timeSpanOf_pos (t : TimeSpanType) : 0 < timeSpanOf t := by
  rcases timeSpanOf_cases t with ⟨h, _⟩ | ⟨h, _⟩ <;> rw [h] <;> decide

/-- The first alignment step puts at most one zero point in front, not after the first input
point, and the head of its result is less than one bucket after `start` (or before it). -/
theorem withLeading_spec (t : TimeSpanType) (start : Int) (d0 : ChartData μ)
    (ds : List (ChartData μ)) :
    ∃ lead : List (ChartData μ),
      (withLeading (timeSpanOf t) start (d0 :: ds)).1 = lead ++ d0 :: ds ∧
      (lead = [] ∨ ∃ z, lead = [ChartData.zeroAt z] ∧ z ≤ d0.Timestamp) ∧
      ∀ h, (lead ++ d0 :: ds).head? = some h →
        Time.ofUnix h.Timestamp + -timeSpanOf t < start := by
  obtain ⟨k, hk1, hk2, hk3⟩ := alignFirst_spec t start d0.Timestamp
  have hexit := alignFirst_exit (timeSpanOf t) start (Time.ofUnix d0.Timestamp) (timeSpanOf_pos t)
  have hS := spanSeconds_pos t
  by_cases heq : alignFirst (timeSpanOf t) start (Time.ofUnix d0.Timestamp)
      = Time.ofUnix d0.Timestamp
  · refine ⟨[], by simp [withLeading, heq], Or.inl rfl, ?_⟩
    intro h hh
    simp at hh
    subst hh
    rw [← heq]
    exact hexit
  · refine ⟨[ChartData.zeroAt (alignFirst (timeSpanOf t) start (Time.ofUnix d0.Timestamp)).Unix],
      by simp [withLeading, heq], Or.inr ⟨_, rfl, ?_⟩, ?_⟩
    · rw [hk1]
      have : 0 ≤ (k : Int) * spanSeconds (timeSpanOf t) :=
        Int.mul_nonneg (Int.ofNat_nonneg k) (le_of_lt hS)
      omega
    · intro h hh
      simp at hh
      subst hh
      show Time.ofUnix (alignFirst (timeSpanOf t) start (Time.ofUnix d0.Timestamp)).Unix
        + -timeSpanOf t < start
      rw [hk2]
      exact hexit

/-- The second alignment step appends at most one zero point, not before the last point, and
the last point of its result is less than one bucket before `end` (or after it). -/
theorem withTrailing_spec (t : TimeSpanType) (stop : Int) (data : List (ChartData μ))
    (dl : ChartData μ) (hdl : data.getLast? = some dl) :
    ∃ trail : List (ChartData μ),
      (withTrailing (timeSpanOf t) stop data).1 = data ++ trail ∧
      (trail = [] ∨ ∃ z, trail = [ChartData.zeroAt z] ∧ dl.Timestamp ≤ z) ∧
      ∀ h, (data ++ trail).getLast? = some h →
        Time.ofUnix h.Timestamp + timeSpanOf t > stop := by
  obtain ⟨k, hk1, hk2, hk3⟩ := alignLast_spec t stop dl.Timestamp
  have hexit := alignLast_exit (timeSpanOf t) stop (Time.ofUnix dl.Timestamp) (timeSpanOf_pos t)
  have hS := spanSeconds_pos t
  by_cases heq : alignLast (timeSpanOf t) stop (Time.ofUnix dl.Timestamp)
      = Time.ofUnix dl.Timestamp
  · refine ⟨[], by simp [withTrailing, hdl, heq], Or.inl rfl, ?_⟩
    intro h hh
    rw [List.append_nil, hdl] at hh
    cases hh
    rw [← heq]
    exact hexit
  · refine ⟨[ChartData.zeroAt (alignLast (timeSpanOf t) stop (Time.ofUnix dl.Timestamp)).Unix],
      by simp [withTrailing, hdl, heq], Or.inr ⟨_, rfl, ?_⟩, ?_⟩
    · rw [hk1]
      have : 0 ≤ (k : Int) * spanSeconds (timeSpanOf t) :=
        Int.mul_nonneg (Int.ofNat_nonneg k) (le_of_lt hS)
      omega
    · intro h hh
      simp at hh
      subst hh
      show Time.ofUnix (alignLast (timeSpanOf t) stop (Time.ofUnix dl.Timestamp)).Unix
        + timeSpanOf t > stop
      rw [hk2]
      exact hexit

end Alignment


/-! ### The walked sequence and the shape of the result -/

section Walked

variable {μ : Type} [Zero μ]

/-- The walked sequence is the input with at most one zero point in front, not after the first
input point, and at most one zero point behind, not before the last input point; its first
point is less than one bucket after `start` and its last point less than one bucket before
`end`, unless they lie outside the window. -/
theorem walked_spec (data : List (ChartData μ)) (hne : data ≠ []) (start stop : Int)
    (t : TimeSpanType) :
    ∃ lead trail : List (ChartData μ),
      walked data start stop t = lead ++ data ++ trail ∧
      (lead = [] ∨ ∃ z, lead = [ChartData.zeroAt z] ∧
        ∀ d0, data.head? = some d0 → z ≤ d0.Timestamp) ∧
      (trail = [] ∨ ∃ z, trail = [ChartData.zeroAt z] ∧
        ∀ dl, data.getLast? = some dl → dl.Timestamp ≤ z) ∧
      (∀ h, (walked data start stop t).head? = some h →
        Time.ofUnix h.Timestamp + -timeSpanOf t < start) ∧
      (∀ h, (walked data start stop t).getLast? = some h →
        Time.ofUnix h.Timestamp + timeSpanOf t > stop) := by
  cases data with
  | nil => exact absurd rfl hne
  | cons d0 ds =>
    obtain ⟨lead, hA, hlead, hhead⟩ := withLeading_spec t start d0 ds
    have hlast : (lead ++ d0 :: ds).getLast? = (d0 :: ds).getLast? := by
      rw [List.getLast?_append, List.getLast?_eq_getLast (d0 :: ds) (List.cons_ne_nil _ _)]
      rfl
    have hsome : (d0 :: ds).getLast? = some ((d0 :: ds).getLast (List.cons_ne_nil _ _)) :=
      List.getLast?_eq_getLast _ _
    obtain ⟨trail, hB, htrail, hend⟩ := withTrailing_spec t stop (lead ++ d0 :: ds)
      ((d0 :: ds).getLast (List.cons_ne_nil _ _)) (hlast.trans hsome)
    have hW : walked (d0 :: ds) start stop t = lead ++ d0 :: ds ++ trail := by
      unfold walked
      rw [hA, hB]
    refine ⟨lead, trail, hW, ?_, ?_, ?_, ?_⟩
    · rcases hlead with h | ⟨z, hz, hle⟩
      · exact Or.inl h
      · refine Or.inr ⟨z, hz, ?_⟩
        intro d hd
        simp at hd
        subst hd
        exact hle
    · rcases htrail with h | ⟨z, hz, hle⟩
      · exact Or.inl h
      · refine Or.inr ⟨z, hz, ?_⟩
        intro dl hdl
        rw [hsome] at hdl
        cases hdl
        exact hle
    · intro h hh
      apply hhead h
      rw [hW] at hh
      rcases hlead with hl | ⟨z, hz, -⟩
      · subst hl; simpa using hh
      · subst hz; simpa using hh
    · intro h hh
      apply hend h
      rw [hW] at hh
      exact hh

/-- On a non-empty input the result is the first walked point followed by what the main loop
appends for the rest of the walked sequence. -/
theorem fillGaps_eq_walk (data : List (ChartData μ)) (hne : data ≠ []) (start stop : Int)
    (t : TimeSpanType) :
    ∃ (f l : Bool) (w0 : ChartData μ) (ws : List (ChartData μ)),
      walked data start stop t = w0 :: ws ∧
      fillGaps data start stop t
        = w0 :: fillWalk (spanSeconds (timeSpanOf t)) f l (ws.length + 1) 1 w0 ws := by
  obtain ⟨lead, trail, hW, -, -, -, -⟩ := walked_spec data hne start stop t
  cases data with
  | nil => exact absurd rfl hne
  | cons d0 ds =>
    rcases hA : withLeading (timeSpanOf t) start (d0 :: ds) with ⟨A, f⟩
    rcases hB : withTrailing (timeSpanOf t) stop A with ⟨B, l⟩
    have hWB : walked (d0 :: ds) start stop t = B := by
      unfold walked
      rw [hA]
      show (withTrailing (timeSpanOf t) stop A).1 = B
      rw [hB]
    cases B with
    | nil =>
      rw [hWB] at hW
      have := congrArg List.length hW
      simp at this
      omega
    | cons w0 ws =>
      refine ⟨f, l, w0, ws, hWB, ?_⟩
      simp [fillGaps, hA, hB]

/-- A series whose neighbours are all less than two buckets apart, whose first point is less
than one bucket after `start` and whose last point is less than one bucket before `end`, is
returned as it is. -/
theorem fillGaps_fix (x0 : ChartData μ) (xs : List (ChartData μ)) (start stop : Int)
    (t : TimeSpanType)
    (hchain : List.Chain (fun a b : ChartData μ =>
      b.Timestamp - a.Timestamp < 2 * spanSeconds (timeSpanOf t)) x0 xs)
    (hfirst : Time.ofUnix x0.Timestamp + -timeSpanOf t < start)
    (hlast : ∀ h, (x0 :: xs).getLast? = some h →
      Time.ofUnix h.Timestamp + timeSpanOf t > stop) :
    fillGaps (x0 :: xs) start stop t = x0 :: xs := by
  have hA : withLeading (timeSpanOf t) start (x0 :: xs) = (x0 :: xs, false) := by
    simp [withLeading, alignFirst, alignFirstLoop_fix _ _ _ _ hfirst]
  have hsome : (x0 :: xs).getLast? = some ((x0 :: xs).getLast (List.cons_ne_nil _ _)) :=
    List.getLast?_eq_getLast _ _
  have hB : withTrailing (timeSpanOf t) stop (x0 :: xs) = (x0 :: xs, false) := by
    unfold withTrailing
    rw [hsome]
    simp [alignLast, alignLastLoop_fix _ _ _ _ (hlast _ hsome)]
  simp only [fillGaps, hA, hB]
  rw [fillWalk_id _ (spanSeconds_pos t) _ _ _ xs 1 x0 hchain]

end Walked


/-! ### Where the points of one pair end up -/

section Pairs

variable {μ : Type} [Zero μ]

theorem fillWalk_le (S : Int) (hS : 0 < S) (f l : Bool) (n : Nat) (hi : Int)
    (ws : List (ChartData μ)) :
    ∀ (i : Nat) (prev : ChartData μ), (∀ x ∈ ws, x.Timestamp ≤ hi) →
      ∀ y ∈ fillWalk S f l n i prev ws, y.Timestamp ≤ hi := by
  induction ws with
  | nil => intro i prev _ y hy; simp [fillWalk] at hy
  | cons curr rest ih =>
    intro i prev hws y hy
    unfold fillWalk at hy
    obtain ⟨mid, hmid, hbetween, -⟩ := fillStep_spec S hS f l n i prev curr
    rw [hmid] at hy
    have hcurr := hws curr (List.mem_cons_self _ _)
    rcases List.mem_append.1 hy with h | h
    · rcases List.mem_append.1 h with h | h
      · have := (hbetween y h).2.2
        omega
      · rw [List.mem_singleton] at h; subst h; exact hcurr
    · exact ih (i + 1) curr (fun x hx => hws x (List.mem_cons_of_mem _ hx)) y h

theorem fillWalk_ge (S : Int) (hS : 0 < S) (f l : Bool) (n : Nat) (lo : Int)
    (ws : List (ChartData μ)) :
    ∀ (i : Nat) (prev : ChartData μ), lo ≤ prev.Timestamp → (∀ x ∈ ws, lo ≤ x.Timestamp) →
      ∀ y ∈ fillWalk S f l n i prev ws, lo ≤ y.Timestamp := by
  induction ws with
  | nil => intro i prev _ _ y hy; simp [fillWalk] at hy
  | cons curr rest ih =>
    intro i prev hprev hws y hy
    unfold fillWalk at hy
    obtain ⟨mid, hmid, hbetween, -⟩ := fillStep_spec S hS f l n i prev curr
    rw [hmid] at hy
    have hcurr := hws curr (List.mem_cons_self _ _)
    rcases List.mem_append.1 hy with h | h
    · rcases List.mem_append.1 h with h | h
      · have := (hbetween y h).2.1
        omega
      · rw [List.mem_singleton] at h; subst h; exact hcurr
    · exact ih (i + 1) curr hcurr (fun x hx => hws x (List.mem_cons_of_mem _ hx)) y h

/-- The main loop over a sequence in which `p` is followed by `c`: what it appends is some
points, then `p`, then the round of the pair `p`, `c`, then the rounds after `c`; the points
before `p` are not later than `p` when no walked point before `p` is. -/
theorem fillWalk_decomp (S : Int) (hS : 0 < S) (f l : Bool) (n : Nat) (p c : ChartData μ)
    (Q : List (ChartData μ)) (P : List (ChartData μ)) :
    ∀ (i : Nat) (prev : ChartData μ), (∀ x ∈ P, x.Timestamp ≤ p.Timestamp) →
      ∃ (A : List (ChartData μ)) (j k : Nat),
        fillWalk S f l n i prev (P ++ p :: c :: Q)
          = A ++ p :: (fillStep S f l n j p c ++ fillWalk S f l n k c Q) ∧
        ∀ y ∈ A, y.Timestamp ≤ p.Timestamp := by
  induction P with
  | nil =>
    intro i prev _
    obtain ⟨mid, hmid, hbetween, -⟩ := fillStep_spec S hS f l n i prev p
    refine ⟨mid, i + 1, i + 1 + 1, ?_, ?_⟩
    · rw [List.nil_append]
      conv_lhs => unfold fillWalk
      rw [hmid]
      conv_lhs => rw [fillWalk]
      simp
    · intro y hy
      have := (hbetween y hy).2.2
      omega
  | cons a rest ih =>
    intro i prev hP
    obtain ⟨mid, hmid, hbetween, -⟩ := fillStep_spec S hS f l n i prev a
    have ha := hP a (List.mem_cons_self _ _)
    obtain ⟨A, j, k, hA, hAle⟩ := ih (i + 1) a (fun x hx => hP x (List.mem_cons_of_mem _ hx))
    refine ⟨mid ++ [a] ++ A, j, k, ?_, ?_⟩
    · rw [List.cons_append]
      conv_lhs => unfold fillWalk
      rw [hmid, hA]
      simp
    · intro y hy
      rcases List.mem_append.1 hy with h | h
      · rcases List.mem_append.1 h with h | h
        · have := (hbetween y h).2.2
          omega
        · rw [List.mem_singleton] at h; subst h; exact ha
      · exact hAle y h

end Pairs

/-! ## Dashboard gap filling: the claims -/

/-- C6 (counterexample): for the hours 0 and 5 in the window from hour 0 to hour 5 a second run
differs from the first: the first run gives the hours 0, 1, 4, 5, and the second run fills the
gap between the two markers, giving the hours 0 to 5. -/
theorem fillGaps_not_idempotent :
    fillGaps (fillGaps (hourPoints [0, 5]) (Time.ofUnix 0) (Time.ofUnix 18000)
        TimeSpanType.TimeSpanHour) (Time.ofUnix 0) (Time.ofUnix 18000) TimeSpanType.TimeSpanHour
      ≠ fillGaps (hourPoints [0, 5]) (Time.ofUnix 0) (Time.ofUnix 18000)
          TimeSpanType.TimeSpanHour := by
  decide

/-- C6 (amended): when no two consecutive points of the sequence `fillGaps` walks (the input
plus any synthesized leading and trailing point) are more than 3 buckets apart, a second run of
`fillGaps` with the same window and span returns the sequence of the first run. -/
theorem fillGaps_idempotent_short_gaps {μ : Type} [Zero μ] (data : List (ChartData μ))
    (start end_ : Time) (t : TimeSpanType)
    (hshort : List.Chain' (fun prev curr : ChartData μ => bucketsApart t prev curr ≤ 3)
      (walked data start end_ t)) :
    fillGaps (fillGaps data start end_ t) start end_ t = fillGaps data start end_ t := by
  by_cases hne : data = []
  · subst hne; rfl
  · obtain ⟨f, l, w0, ws, hW, hF⟩ := fillGaps_eq_walk data hne start end_ t
    obtain ⟨-, -, -, -, -, hhead, hlast⟩ := walked_spec data hne start end_ t
    rw [hW] at hshort hhead hlast
    rw [hF]
    apply fillGaps_fix
    · exact fillWalk_chain _ (spanSeconds_pos t) f l _ ws 1 w0 hshort
    · exact hhead w0 rfl
    · intro h hh
      apply hlast h
      rw [← hh]
      cases ws with
      | nil => rfl
      | cons a rest =>
        have h1 := fillWalk_getLast? (spanSeconds (timeSpanOf t)) (spanSeconds_pos t) f l
          ((a :: rest).length + 1) (a :: rest) 1 w0
        have hne2 : fillWalk (spanSeconds (timeSpanOf t)) f l ((a :: rest).length + 1) 1 w0
            (a :: rest) ≠ [] := by
          intro h0
          rw [h0, List.getLast?_eq_getLast (a :: rest) (List.cons_ne_nil a rest)] at h1
          cases h1
        obtain ⟨b, bs, hb⟩ := List.exists_cons_of_ne_nil hne2
        rw [hb] at h1 ⊢
        rw [List.getLast?_cons_cons, List.getLast?_cons_cons]
        exact h1.symm

/-- C6 (instance): the hours 0, 1, 4 in the window from hour 0 to hour 4 have no gap of more
than 3 buckets, and a second run changes nothing. -/
theorem fillGaps_idempotent_short_gaps_witness :
    fillGaps (fillGaps (hourPoints [0, 1, 4]) (Time.ofUnix 0) (Time.ofUnix 14400)
        TimeSpanType.TimeSpanHour) (Time.ofUnix 0) (Time.ofUnix 14400) TimeSpanType.TimeSpanHour
      = fillGaps (hourPoints [0, 1, 4]) (Time.ofUnix 0) (Time.ofUnix 14400)
          TimeSpanType.TimeSpanHour :=
  fillGaps_idempotent_short_gaps (hourPoints [0, 1, 4]) (Time.ofUnix 0) (Time.ofUnix 14400)
    TimeSpanType.TimeSpanHour
    ((by decide : walked (hourPoints [0, 1, 4]) (Time.ofUnix 0) (Time.ofUnix 14400)
        TimeSpanType.TimeSpanHour = [⟨0, 1⟩, ⟨3600, 1⟩, ⟨14400, 1⟩]) ▸
      List.chain'_cons.2 ⟨by decide, List.chain'_cons.2 ⟨by decide, List.chain'_singleton _⟩⟩)

/-- C7 (counterexample): for hourly buckets, the window from hour 0 to hour 9 and points at the
hours 0, 1, 5, 9 the result does not have the timestamps of the hours
0, 1, 2, 3, 4, 5, 6, 8, 9. -/
theorem fillGaps_scenario_not_as_claimed :
    timestamps (fillGaps (hourPoints [0, 1, 5, 9]) (Time.ofUnix 0) (Time.ofUnix 32400)
        TimeSpanType.TimeSpanHour)
      ≠ [0, 3600, 7200, 10800, 14400, 18000, 21600, 28800, 32400] := by
  decide

/-- C7 (amended): for hourly buckets, the window from hour 0 to hour 9 and points at the hours
0, 1, 5, 9 the result has points at exactly the hours 0, 1, 2, 4, 5, 6, 8, 9: the pairs 1, 5
and 5, 9 are both 4 buckets apart and each gets only its two boundary markers (hours 2 and 4,
hours 6 and 8) as zero points, with no point at hour 3 or hour 7; the four input points keep
their metric values. -/
theorem fillGaps_scenario :
    fillGaps (hourPoints [0, 1, 5, 9]) (Time.ofUnix 0) (Time.ofUnix 32400)
        TimeSpanType.TimeSpanHour
      = [⟨0, 1⟩, ⟨3600, 1⟩, ⟨7200, 0⟩, ⟨14400, 0⟩, ⟨18000, 1⟩, ⟨21600, 0⟩, ⟨28800, 0⟩,
          ⟨32400, 1⟩] ∧
    bucketsApart TimeSpanType.TimeSpanHour (⟨3600, 1⟩ : ChartData Nat) ⟨18000, 1⟩ = 4 ∧
    bucketsApart TimeSpanType.TimeSpanHour (⟨18000, 1⟩ : ChartData Nat) ⟨32400, 1⟩ = 4 := by
  decide

/-- C8: when the input is time-ordered and two consecutive input points `p`, `c` are more than
3 buckets apart, the result is some points not later than `p`, then `p`, then at most 2 points,
then `c`, then points not earlier than `c`; the points between `p` and `c` are zero points with
timestamps strictly between the two, however large the gap is. -/
theorem fillGaps_long_gap_at_most_two {μ : Type} [Zero μ] (data pre post : List (ChartData μ))
    (p c : ChartData μ) (start end_ : Time) (t : TimeSpanType)
    (hdata : data = pre ++ p :: c :: post)
    (hordered : List.Pairwise (fun a b : ChartData μ => a.Timestamp ≤ b.Timestamp) data)
    (hgap : 3 < bucketsApart t p c) :
    ∃ A mid B : List (ChartData μ),
      fillGaps data start end_ t = A ++ p :: mid ++ c :: B ∧
      mid.length ≤ 2 ∧
      (∀ y ∈ mid, y.Metrics = 0 ∧ p.Timestamp < y.Timestamp ∧ y.Timestamp < c.Timestamp) ∧
      (∀ y ∈ A, y.Timestamp ≤ p.Timestamp) ∧
      (∀ y ∈ B, c.Timestamp ≤ y.Timestamp) := by
  have hS := spanSeconds_pos t
  have hne : data ≠ [] := by
    rw [hdata]; simp
  obtain ⟨f, l, w0, ws, hW, hF⟩ := fillGaps_eq_walk data hne start end_ t
  obtain ⟨lead, trail, hWs, hlead, htrail, -, -⟩ := walked_spec data hne start end_ t
  rw [hdata] at hordered
  rw [List.pairwise_append] at hordered
  obtain ⟨-, hpc, hpre⟩ := hordered
  rw [List.pairwise_cons, List.pairwise_cons] at hpc
  obtain ⟨hp, hc, -⟩ := hpc
  -- every walked point before `p` is not later than `p`
  have hP : ∀ x ∈ lead ++ pre, x.Timestamp ≤ p.Timestamp := by
    intro x hx
    rcases List.mem_append.1 hx with h | h
    · rcases hlead with hl | ⟨z, hz, hle⟩
      · rw [hl] at h; simp at h
      · rw [hz, List.mem_singleton] at h
        subst h
        cases pre with
        | nil => exact hle p (by rw [hdata]; rfl)
        | cons d0 rest =>
          have h1 := hle d0 (by rw [hdata]; rfl)
          have h2 := hpre d0 (List.mem_cons_self _ _) p (List.mem_cons_self _ _)
          show z ≤ p.Timestamp
          omega
    · exact hpre x h p (List.mem_cons_self _ _)
  -- every walked point after `c` is not earlier than `c`
  have hQ : ∀ x ∈ post ++ trail, c.Timestamp ≤ x.Timestamp := by
    intro x hx
    rcases List.mem_append.1 hx with h | h
    · exact hc x h
    · rcases htrail with hl | ⟨z, hz, hle⟩
      · rw [hl] at h; simp at h
      · rw [hz, List.mem_singleton] at h
        subst h
        have hlast : ∃ dl, data.getLast? = some dl ∧ c.Timestamp ≤ dl.Timestamp := by
          rw [hdata]
          rcases List.eq_nil_or_concat post with h0 | ⟨L, b, hb⟩
          · subst h0
            refine ⟨c, ?_, le_refl _⟩
            rw [show pre ++ [p, c] = (pre ++ [p]) ++ [c] by simp, List.getLast?_append]
            rfl
          · rw [List.concat_eq_append] at hb
            refine ⟨b, ?_, hc b (by rw [hb]; simp)⟩
            rw [hb, show pre ++ p :: c :: (L ++ [b]) = (pre ++ p :: c :: L) ++ [b] by simp,
              List.getLast?_append]
            rfl
        obtain ⟨dl, hdl, hcdl⟩ := hlast
        have := hle dl hdl
        show c.Timestamp ≤ z
        omega
  have hWalk : w0 :: ws = (lead ++ pre) ++ p :: c :: (post ++ trail) := by
    rw [← hW, hWs, hdata]; simp
  have hstep : ∀ j, ∃ mid : List (ChartData μ),
      fillStep (spanSeconds (timeSpanOf t)) f l (ws.length + 1) j p c = mid ++ [c] ∧
      (∀ y ∈ mid, y.Metrics = 0 ∧ p.Timestamp < y.Timestamp ∧ y.Timestamp < c.Timestamp) ∧
      mid.length ≤ 2 := by
    intro j
    obtain ⟨mid, h1, h2, h3⟩ := fillStep_spec (spanSeconds (timeSpanOf t)) hS f l
      (ws.length + 1) j p c
    exact ⟨mid, h1, h2, h3 hgap⟩
  have hafter : ∀ k, ∀ y ∈ fillWalk (spanSeconds (timeSpanOf t)) f l (ws.length + 1) k c
      (post ++ trail), c.Timestamp ≤ y.Timestamp :=
    fun k => fillWalk_ge _ hS f l _ c.Timestamp (post ++ trail) k c (le_refl _) hQ
  rw [hF]
  rcases hPL : lead ++ pre with _ | ⟨a, rest⟩
  · rw [hPL, List.nil_append] at hWalk
    injection hWalk with h1 h2
    subst h1
    obtain ⟨mid, hmid, hbetween, hlen⟩ := hstep 1
    refine ⟨[], mid, fillWalk (spanSeconds (timeSpanOf t)) f l (ws.length + 1) (1 + 1) c
      (post ++ trail), ?_, hlen, hbetween, by simp, hafter _⟩
    rw [h2]
    conv_lhs => unfold fillWalk
    rw [← h2, hmid]
    simp
  · rw [hPL, List.cons_append] at hWalk
    injection hWalk with h1 h2
    subst h1
    rw [hPL] at hP
    obtain ⟨A, j, k, hA, hAle⟩ := fillWalk_decomp (spanSeconds (timeSpanOf t)) hS f l
      (ws.length + 1) p c (post ++ trail) rest 1 w0
      (fun x hx => hP x (List.mem_cons_of_mem _ hx))
    obtain ⟨mid, hmid, hbetween, hlen⟩ := hstep j
    refine ⟨w0 :: A, mid, fillWalk (spanSeconds (timeSpanOf t)) f l (ws.length + 1) k c
      (post ++ trail), ?_, hlen, hbetween, ?_, hafter _⟩
    · rw [← h2] at hA
      rw [hA, hmid]
      simp
    · intro y hy
      rcases List.mem_cons.1 hy with h | h
      · subst h; exact hP _ (List.mem_cons_self _ _)
      · exact hAle y h

/-- C8 (instance): the hours 0, 1 and 9 in the window from hour 0 to hour 9: the pair 1, 9 is
8 buckets apart and gets the two markers at the hours 2 and 8. -/
theorem fillGaps_long_gap_at_most_two_witness :
    ∃ A mid B : List (ChartData Nat),
      fillGaps (hourPoints [0, 1, 9]) (Time.ofUnix 0) (Time.ofUnix 32400)
          TimeSpanType.TimeSpanHour
        = A ++ (⟨3600, 1⟩ : ChartData Nat) :: mid ++ (⟨32400, 1⟩ : ChartData Nat) :: B ∧
      mid.length ≤ 2 ∧
      (∀ y ∈ mid, y.Metrics = 0 ∧ (3600 : Int) < y.Timestamp ∧ y.Timestamp < 32400) ∧
      (∀ y ∈ A, y.Timestamp ≤ 3600) ∧
      (∀ y ∈ B, (32400 : Int) ≤ y.Timestamp) :=
  fillGaps_long_gap_at_most_two (hourPoints [0, 1, 9]) [⟨0, 1⟩] [] ⟨3600, 1⟩ ⟨32400, 1⟩
    (Time.ofUnix 0) (Time.ofUnix 32400) TimeSpanType.TimeSpanHour (by decide) (by decide)
    (by decide)

/-! ## Dashboard window -/

/-- C11: for every type string and every clock reading `now`, `getDashboardTime` returns
`end = now` and `start = now` moved back by 30 days for `month`, 15 days for `two_week`, 7 days
for `week`, and 1 day for `day` and for every other string; the span is hourly exactly when the
window is the 1-day one (the type is none of `month`, `two_week`, `week`) and daily for the
three longer windows.  With 24-hour days the start is `now` minus that many times 24 hours. -/
theorem getDashboardTime_window (now : Time) (AddDate : Time → Int → Int → Int → Time)
    (t : String) :
    (t = "month" →
      getDashboardTime now AddDate t = (AddDate now 0 0 (-30), now, TimeSpanType.TimeSpanDay)) ∧
    (t = "two_week" →
      getDashboardTime now AddDate t = (AddDate now 0 0 (-15), now, TimeSpanType.TimeSpanDay)) ∧
    (t = "week" →
      getDashboardTime now AddDate t = (AddDate now 0 0 (-7), now, TimeSpanType.TimeSpanDay)) ∧
    (t = "day" →
      getDashboardTime now AddDate t = (AddDate now 0 0 (-1), now, TimeSpanType.TimeSpanHour)) ∧
    (t ≠ "month" → t ≠ "two_week" → t ≠ "week" →
      getDashboardTime now AddDate t = (AddDate now 0 0 (-1), now, TimeSpanType.TimeSpanHour)) ∧
    ((getDashboardTime now AddDate t).2.2 = TimeSpanType.TimeSpanHour ↔
      (t ≠ "month" ∧ t ≠ "two_week" ∧ t ≠ "week")) ∧
    (getDashboardTime now AddDate t).2.1 = now ∧
    (getDashboardTime now (fun x _ _ days => addDays x days) "month").1
      = now - 30 * (24 * Hour) ∧
    (getDashboardTime now (fun x _ _ days => addDays x days) "two_week").1
      = now - 15 * (24 * Hour) ∧
    (getDashboardTime now (fun x _ _ days => addDays x days) "week").1
      = now - 7 * (24 * Hour) ∧
    (getDashboardTime now (fun x _ _ days => addDays x days) "day").1
      = now - 1 * (24 * Hour) := by
  refine ⟨?_, ?_, ?_, ?_, ?_, ?_, ?_, ?_, ?_, ?_, ?_⟩
  · intro h; subst h; simp [getDashboardTime]
  · intro h; subst h; simp [getDashboardTime]
  · intro h; subst h; simp [getDashboardTime]
  · intro h; subst h; simp [getDashboardTime]
  · intro h1 h2 h3; simp [getDashboardTime, h1, h2, h3]
  · unfold getDashboardTime
    by_cases h1 : t = "month"
    · simp [h1]
    · by_cases h2 : t = "two_week"
      · simp [h2]
      · by_cases h3 : t = "week"
        · simp [h3]
        · simp [h1, h2, h3]
  · unfold getDashboardTime
    by_cases h1 : t = "month"
    · simp [h1]
    · by_cases h2 : t = "two_week"
      · simp [h2]
      · by_cases h3 : t = "week"
        · simp [h3]
        · simp [h1, h2, h3]
  · simp only [getDashboardTime, addDays, if_true]; ring
  · simp [getDashboardTime, addDays]; ring
  · simp [getDashboardTime, addDays]; ring
  · simp [getDashboardTime, addDays]; ring

/-- C11 (instance): the type `hour`, which is none of the named ones, at the clock reading of
100 days after the epoch with 24-hour days: the window is the last day and the span hourly. -/
theorem getDashboardTime_window_witness :
    getDashboardTime (Time.ofUnix 8640000) (fun x _ _ days => addDays x days) "hour"
      = (Time.ofUnix 8553600, Time.ofUnix 8640000, TimeSpanType.TimeSpanHour) :=
  ((getDashboardTime_window (Time.ofUnix 8640000) (fun x _ _ days => addDays x days)
    "hour").2.2.2.2.1 (by decide) (by decide) (by decide)).trans (by decide)

/-! ## Admin and internal credentials -/

/-- C17: `AdminAuth` answers 401 and aborts, without calling the next handler, exactly when
the admin key is non-empty and the `Authorization` header is empty or, with one leading
`Bearer ` removed, differs from the admin key; in every other case, in particular whenever the
admin key is empty, it calls the next handler and writes no response. -/
theorem AdminAuth_rejects_iff (env : Env) (c : Context) :
    ((env.AdminKey ≠ "" ∧
        (c.Authorization = "" ∨ TrimPrefix c.Authorization "Bearer " ≠ env.AdminKey)) →
      (AdminAuth env c).status = some StatusUnauthorized ∧
        (AdminAuth env c).aborted = true ∧
        (AdminAuth env c).nextCalled = c.nextCalled) ∧
    (¬ (env.AdminKey ≠ "" ∧
        (c.Authorization = "" ∨ TrimPrefix c.Authorization "Bearer " ≠ env.AdminKey)) →
      (AdminAuth env c).nextCalled = true ∧
        (AdminAuth env c).aborted = c.aborted ∧
        (AdminAuth env c).status = c.status ∧
        (AdminAuth env c).message = c.message) ∧
    (env.AdminKey = "" → (AdminAuth env c).nextCalled = true) := by
  refine ⟨?_, ?_, ?_⟩
  · intro h
    simp only [AdminAuth, if_pos h]
    exact ⟨rfl, rfl, rfl⟩
  · intro h
    simp only [AdminAuth, if_neg h]
    exact ⟨rfl, rfl, rfl, rfl⟩
  · intro h
    have hn : ¬ (env.AdminKey ≠ "" ∧
        (c.Authorization = "" ∨ TrimPrefix c.Authorization "Bearer " ≠ env.AdminKey)) :=
      fun hc => hc.1 h
    simp only [AdminAuth, if_neg hn]
    rfl

/-- C17 (instance): with the admin key `adm` the header `Bearer wrong` is answered 401 and
aborted, and the header `Bearer adm` reaches the next handler. -/
theorem AdminAuth_rejects_iff_witness :
    ((AdminAuth sampleEnv { Authorization := "Bearer wrong" }).status = some StatusUnauthorized ∧
      (AdminAuth sampleEnv { Authorization := "Bearer wrong" }).aborted = true ∧
      (AdminAuth sampleEnv { Authorization := "Bearer wrong" }).nextCalled = false) ∧
    ((AdminAuth sampleEnv { Authorization := "Bearer adm" }).nextCalled = true ∧
      (AdminAuth sampleEnv { Authorization := "Bearer adm" }).aborted = false ∧
      (AdminAuth sampleEnv { Authorization := "Bearer adm" }).status = none ∧
      (AdminAuth sampleEnv { Authorization := "Bearer adm" }).message = "") :=
  ⟨(AdminAuth_rejects_iff sampleEnv { Authorization := "Bearer wrong" }).1 (by decide),
   (AdminAuth_rejects_iff sampleEnv { Authorization := "Bearer adm" }).2.1 (by decide)⟩

/-- C15 (evaluation at the failing input): with the admin key `sk-admin` the header
`Bearer sk-admin` is accepted by `AdminAuth`, which calls the next handler, while `TokenAuth`
works with the credential `admin`, does not take it for the admin key, asks the token store for
it and answers 401 without calling the next handler or storing a group. -/
theorem TokenAuth_misses_sk_admin_key :
    (AdminAuth sampleEnvSk { Authorization := "Bearer sk-admin" }).nextCalled = true ∧
    (AdminAuth sampleEnvSk { Authorization := "Bearer sk-admin" }).aborted = false ∧
    credential { Authorization := "Bearer sk-admin" } = "admin" ∧
    (TokenAuth sampleEnvSk { Authorization := "Bearer sk-admin" }).trace
      = [Call.ValidateAndGetToken "admin"] ∧
    (TokenAuth sampleEnvSk { Authorization := "Bearer sk-admin" }).status
      = some StatusUnauthorized ∧
    (TokenAuth sampleEnvSk { Authorization := "Bearer sk-admin" }).aborted = true ∧
    (TokenAuth sampleEnvSk { Authorization := "Bearer sk-admin" }).nextCalled = false ∧
    (TokenAuth sampleEnvSk { Authorization := "Bearer sk-admin" }).Group = none := by
  decide

/-- C18: a request whose credential is not a non-empty admin key and not a non-empty internal
token (in particular an empty credential, also when both keys are empty) is never treated as
internal: the token store is the first collaborator consulted, and if the next handler is
reached then the token validated, it lists no subnets or the subnet check answered yes, its
group was loaded from the group store with status enabled or internal, and that loaded group
and the narrowed stored token are what the context holds. -/
theorem TokenAuth_not_internal (env : Env) (c : Context)
    (hfresh : c.nextCalled = false)
    (hcred : ¬ ((env.AdminKey ≠ "" ∧ env.AdminKey = credential c) ∨
      (env.InternalToken ≠ "" ∧ env.InternalToken = credential c))) :
    (∃ rest, (TokenAuth env c).trace
        = c.trace ++ Call.ValidateAndGetToken (credential c) :: rest) ∧
    ((TokenAuth env c).nextCalled = true →
      ∃ token group,
        env.ValidateAndGetToken (credential c) = .ok token ∧
        (token.Subnets = [] ∨ env.IsIPInSubnets c.ClientIP token.Subnets = .ok true) ∧
        env.CacheGetGroup token.Group = .ok group ∧
        (group.Status = GroupStatusEnabled ∨ group.Status = GroupStatusInternal) ∧
        (TokenAuth env c).Group = some group ∧
        (TokenAuth env c).Token = some (storeTokenModels token env.LoadModelCaches) ∧
        (TokenAuth env c).aborted = c.aborted) := by
  have hT : TokenAuth env c =
      match env.ValidateAndGetToken (credential c) with
      | .error err =>
        abortLogWithMessage (c.call (Call.ValidateAndGetToken (credential c)))
          StatusUnauthorized err
      | .ok token =>
        TokenAuth.checkSubnets env (c.call (Call.ValidateAndGetToken (credential c))) token
          false := by
    unfold TokenAuth
    simp only [if_neg hcred]
  rw [hT]
  cases htok : env.ValidateAndGetToken (credential c) with
  | error err =>
    refine ⟨⟨[], by simp [abortLogWithMessage, Context.call]⟩, ?_⟩
    intro h
    simp [abortLogWithMessage, Context.call, hfresh] at h
  | ok token =>
    simp only []
    -- the group stage, from any context that has not yet reached the next handler
    have hgroup : ∀ c1 : Context, c1.nextCalled = false →
        (∃ rest, (TokenAuth.resolveGroup env c1 token false).trace = c1.trace ++ rest) ∧
        ((TokenAuth.resolveGroup env c1 token false).nextCalled = true →
          ∃ group, env.CacheGetGroup token.Group = .ok group ∧
            (group.Status = GroupStatusEnabled ∨ group.Status = GroupStatusInternal) ∧
            (TokenAuth.resolveGroup env c1 token false).Group = some group ∧
            (TokenAuth.resolveGroup env c1 token false).Token
              = some (storeTokenModels token env.LoadModelCaches) ∧
            (TokenAuth.resolveGroup env c1 token false).aborted = c1.aborted) := by
      intro c1 hc1
      cases hg : env.CacheGetGroup token.Group with
      | error err =>
        simp [TokenAuth.resolveGroup, hg, abortLogWithMessage, Context.call, hc1]
      | ok group =>
        by_cases hst : group.Status ≠ GroupStatusEnabled ∧ group.Status ≠ GroupStatusInternal
        · simp [TokenAuth.resolveGroup, hg, hst, abortLogWithMessage, Context.call, hc1]
        · have hst2 : group.Status = GroupStatusEnabled ∨ group.Status = GroupStatusInternal := by
            by_contra hcon
            exact hst ⟨fun h => hcon (Or.inl h), fun h => hcon (Or.inr h)⟩
          simp [TokenAuth.resolveGroup, hg, hst, TokenAuth.storeAndNext, Context.Next,
            Context.call, hst2]
    by_cases hlen : token.Subnets.length > 0
    · cases hsub : env.IsIPInSubnets c.ClientIP token.Subnets with
      | error err =>
        simp [TokenAuth.checkSubnets, hlen, hsub, abortLogWithMessage, Context.call, hfresh]
      | ok ok =>
        cases ok with
        | false =>
          simp [TokenAuth.checkSubnets, hlen, hsub, abortLogWithMessage, Context.call, hfresh]
        | true =>
          have hcs : TokenAuth.checkSubnets env
              (c.call (Call.ValidateAndGetToken (credential c))) token false
                = TokenAuth.resolveGroup env
                    ((c.call (Call.ValidateAndGetToken (credential c))).call
                      (Call.IsIPInSubnets c.ClientIP token.Subnets)) token false := by
            simp [TokenAuth.checkSubnets, hlen, Context.call, hsub]
          rw [hcs]
          obtain ⟨⟨rest, hrest⟩, hnext⟩ := hgroup
            ((c.call (Call.ValidateAndGetToken (credential c))).call
              (Call.IsIPInSubnets c.ClientIP token.Subnets)) hfresh
          refine ⟨⟨Call.IsIPInSubnets c.ClientIP token.Subnets :: rest, ?_⟩, ?_⟩
          · rw [hrest]; simp [Context.call]
          · intro h
            obtain ⟨group, h1, h2, h3, h4, h5⟩ := hnext h
            exact ⟨token, group, rfl, Or.inr hsub, h1, h2, h3, h4, h5⟩
    · have hnil : token.Subnets = [] := by
        cases hs : token.Subnets with
        | nil => rfl
        | cons a as => rw [hs] at hlen; simp at hlen
      have hcs : TokenAuth.checkSubnets env
          (c.call (Call.ValidateAndGetToken (credential c))) token false
            = TokenAuth.resolveGroup env (c.call (Call.ValidateAndGetToken (credential c)))
                token false := by
        simp [TokenAuth.checkSubnets, hlen]
      rw [hcs]
      obtain ⟨⟨rest, hrest⟩, hnext⟩ := hgroup
        (c.call (Call.ValidateAndGetToken (credential c))) hfresh
      refine ⟨⟨rest, ?_⟩, ?_⟩
      · rw [hrest]; simp [Context.call]
      · intro h
        obtain ⟨group, h1, h2, h3, h4, h5⟩ := hnext h
        exact ⟨token, group, rfl, Or.inl hnil, h1, h2, h3, h4, h5⟩

/-- C18 (instance): a configuration with no admin key and no internal token, and a request
with no `Authorization` header: the empty credential goes to the token store. -/
theorem TokenAuth_not_internal_witness :
    ∃ rest, (TokenAuth { sampleEnv with AdminKey := "" } { Authorization := "" }).trace
      = ([] : List Call) ++ Call.ValidateAndGetToken (credential { Authorization := "" }) :: rest :=
  (TokenAuth_not_internal { sampleEnv with AdminKey := "" } { Authorization := "" } rfl
    (by decide)).1

/-! ## Which names `getXunfeiDomain` accepts -/

theorem cutChars_none_iff (sep : Char) (l : List Char) : cutChars sep l = none ↔ sep ∉ l := by
  induction l with
  | nil => simp [cutChars]
  | cons x rest ih =>
    unfold cutChars
    by_cases h : x = sep
    · simp [h]
    · cases hc : cutChars sep rest with
      | none =>
        have := ih.1 hc
        simp [h, this, Ne.symm h]
      | some p =>
        have hne : sep ∈ rest := by
          by_contra hcon
          rw [ih.2 hcon] at hc
          cases hc
        simp [h, hne]

theorem cutChars_some_iff (sep : Char) (l b a : List Char) :
    cutChars sep l = some (b, a) ↔ l = b ++ sep :: a ∧ sep ∉ b := by
  induction l generalizing b a with
  | nil => simp [cutChars]
  | cons x rest ih =>
    unfold cutChars
    by_cases h : x = sep
    · subst h
      simp only [if_true, Option.some.injEq, Prod.mk.injEq]
      constructor
      · rintro ⟨rfl, rfl⟩
        simp
      · rintro ⟨h1, h2⟩
        cases b with
        | nil =>
          simp at h1
          exact ⟨rfl, h1⟩
        | cons y ys =>
          simp at h1
          exact absurd (List.mem_cons.2 (Or.inl h1.1)) h2
    · simp only [if_neg h]
      cases hc : cutChars sep rest with
      | none =>
        simp only [false_iff, reduceCtorEq]
        rintro ⟨h1, h2⟩
        cases b with
        | nil => simp at h1; exact h h1.1
        | cons y ys =>
          simp at h1
          have : sep ∈ rest := by rw [h1.2]; simp
          exact (cutChars_none_iff sep rest).1 hc this
      | some p =>
        obtain ⟨b1, a1⟩ := p
        have h0 := (ih b1 a1).1 hc
        simp only [Option.some.injEq, Prod.mk.injEq]
        constructor
        · rintro ⟨rfl, rfl⟩
          refine ⟨by rw [h0.1]; simp, ?_⟩
          intro hmem
          rcases List.mem_cons.1 hmem with h1 | h1
          · exact h h1.symm
          · exact h0.2 h1
        · rintro ⟨h1, h2⟩
          cases b with
          | nil => simp at h1; exact absurd h1.1 h
          | cons y ys =>
            simp at h1
            have hys : sep ∉ ys := fun hm => h2 (List.mem_cons_of_mem _ hm)
            have := (ih ys a).2 ⟨h1.2, hys⟩
            rw [hc] at this
            simp at this
            exact ⟨by rw [h1.1, this.1], this.2⟩

theorem sparkAlias_ok_iff (x : String) : (sparkAlias x).2 = none ↔ x ∈ sparkAliases := by
  unfold sparkAlias sparkAliases
  split_ifs <;> simp_all

theorem sparkAlias_error (x : String) (h : (sparkAlias x).2 ≠ none) :
    sparkAlias x = ("", some "invalid model name") := by
  unfold sparkAlias at h ⊢
  split_ifs at h ⊢ <;> simp_all

/-- The name `foo-lite` is ASCII, so what `getXunfeiDomain` does with it does not depend on
the case table above ASCII: it is resolved to `lite`. -/
theorem getXunfeiDomain_foo_lite (unicodeLower : Char → Char) :
    getXunfeiDomain unicodeLower "foo-lite" = ("lite", none) ∧
      ToLower unicodeLower "foo-lite" = "foo-lite" :=
  ⟨rfl, rfl⟩

/-- C16 (counterexample): `foo-lite` is accepted and resolved to `lite`, although it is neither
a domain name in any letter case nor `spark-` followed by an alias. -/
theorem getXunfeiDomain_accepts_other_prefix :
    getXunfeiDomain sampleUnicodeLower "foo-lite" = ("lite", none) ∧
      ToLower sampleUnicodeLower "foo-lite" ∉ directDomains ∧
      ∀ al ∈ sparkAliases, ToLower sampleUnicodeLower "foo-lite" ≠ "spark-" ++ al := by
  decide

/-- C16 (amended): `getXunfeiDomain` accepts a name exactly when, ignoring letter case as
`strings.ToLower` does, it is one of the six domain names, or the text after its first `-` is,
ignoring letter case in the same way, one of the six aliases, whatever stands before that `-`;
every other name yields the error `invalid model name` with an empty result, in particular
every name without a `-` that is not a domain name.  This holds for every case table above
ASCII, so for the one of the standard library. -/
theorem getXunfeiDomain_accepts_iff (unicodeLower : Char → Char) (modelName : String) :
    ((getXunfeiDomain unicodeLower modelName).2 = none ↔
      (ToLower unicodeLower modelName ∈ directDomains ∨
        ∃ before s : String, modelName = before ++ "-" ++ s ∧ '-' ∉ before.data ∧
          ToLower unicodeLower s ∈ sparkAliases)) ∧
    ((getXunfeiDomain unicodeLower modelName).2 ≠ none →
      getXunfeiDomain unicodeLower modelName = ("", some "invalid model name")) ∧
    ('-' ∉ modelName.data → ToLower unicodeLower modelName ∉ directDomains →
      getXunfeiDomain unicodeLower modelName = ("", some "invalid model name")) := by
  have hsplit : ∀ before s : String, modelName = before ++ "-" ++ s ∧ '-' ∉ before.data ↔
      cutChars '-' modelName.data = some (before.data, s.data) := by
    intro before s
    rw [cutChars_some_iff]
    constructor
    · rintro ⟨h1, h2⟩
      exact ⟨by rw [h1]; simp, h2⟩
    · rintro ⟨h1, h2⟩
      exact ⟨by apply String.ext; rw [h1]; simp, h2⟩
  by_cases hd : ToLower unicodeLower modelName ∈ directDomains
  · refine ⟨?_, ?_, ?_⟩
    · simp [getXunfeiDomain, hd]
    · intro h; simp [getXunfeiDomain, hd] at h
    · intro _ h; exact absurd hd h
  · cases hc : cutChars '-' modelName.data with
    | none =>
      have hG : getXunfeiDomain unicodeLower modelName = ("", some "invalid model name") := by
        simp [getXunfeiDomain, hd, Cut, hc]
      refine ⟨?_, fun _ => hG, fun _ _ => hG⟩
      rw [hG]
      simp only [reduceCtorEq, false_iff, not_or, not_exists, not_and]
      refine ⟨hd, ?_⟩
      intro before s h1 h2
      have := (hsplit before s).1 ⟨h1, h2⟩
      rw [hc] at this
      cases this
    | some p =>
      obtain ⟨b, a⟩ := p
      have hG : getXunfeiDomain unicodeLower modelName
          = sparkAlias (ToLower unicodeLower ⟨a⟩) := by
        simp [getXunfeiDomain, hd, Cut, hc]
      refine ⟨?_, ?_, ?_⟩
      · rw [hG, sparkAlias_ok_iff]
        constructor
        · intro h
          exact Or.inr ⟨⟨b⟩, ⟨a⟩, ((hsplit ⟨b⟩ ⟨a⟩).2 hc).1, ((hsplit ⟨b⟩ ⟨a⟩).2 hc).2, h⟩
        · rintro (h | ⟨before, s, h1, h2, h3⟩)
          · exact absurd h hd
          · have := (hsplit before s).1 ⟨h1, h2⟩
            rw [hc] at this
            simp only [Option.some.injEq, Prod.mk.injEq] at this
            have hs : s = ⟨a⟩ := String.ext this.2.symm
            rw [← hs]
            exact h3
      · intro h
        rw [hG] at h ⊢
        exact sparkAlias_error _ h
      · intro hno _
        have := (cutChars_none_iff '-' modelName.data).2 hno
        rw [hc] at this
        cases this

/-- C16 (instance): `SparkDesk-Pro-128K` is accepted, its text after the first `-` being the
alias `pro-128k` in another letter case, and so is the domain name `pro-128k` spelled with the
Kelvin sign U+212A for its last letter. -/
theorem getXunfeiDomain_accepts_iff_witness :
    (getXunfeiDomain sampleUnicodeLower "SparkDesk-Pro-128K").2 = none ∧
      (getXunfeiDomain sampleUnicodeLower "pro-128\u212A").2 = none :=
  ⟨(getXunfeiDomain_accepts_iff sampleUnicodeLower "SparkDesk-Pro-128K").1.2
      (Or.inr ⟨"SparkDesk", "Pro-128K", by decide, by decide, by decide⟩),
   (getXunfeiDomain_accepts_iff sampleUnicodeLower "pro-128\u212A").1.2
      (Or.inl (by decide))⟩

/-! ## Applying `storeTokenModels` twice -/

/-- C20 (counterexample): the sample snapshot is consistent (its enabled list is the list of
the map keys), and for the allow-list `[gpt-5]`, none of whose names is enabled, one
application leaves the empty allow-list and a second one replaces it by all enabled models. -/
theorem storeTokenModels_not_idempotent :
    sampleEnv.LoadModelCaches.EnabledModels
        = sampleEnv.LoadModelCaches.EnabledModelsMap.map Prod.fst ∧
      (storeTokenModels { Models := ["gpt-5"] } sampleEnv.LoadModelCaches).Models = [] ∧
      (storeTokenModels (storeTokenModels { Models := ["gpt-5"] } sampleEnv.LoadModelCaches)
          sampleEnv.LoadModelCaches).Models = ["gpt-4", "gpt-3.5"] ∧
      (storeTokenModels (storeTokenModels { Models := ["gpt-5"] } sampleEnv.LoadModelCaches)
          sampleEnv.LoadModelCaches).Models
        ≠ (storeTokenModels { Models := ["gpt-5"] } sampleEnv.LoadModelCaches).Models := by
  decide

/-- C20 (amended): for every consistent model snapshot (`EnabledModels` lists exactly the keys
of `EnabledModelsMap`) and every token whose allow-list is empty or names at least one enabled
model, applying `storeTokenModels` twice with that snapshot leaves the same token, and so the
same allow-list, as applying it once. -/
theorem storeTokenModels_idempotent (token : TokenCache) (mc : ModelCaches)
    (hconsistent : ∀ m, m ∈ mc.EnabledModels ↔ m ∈ mc.EnabledModelsMap.map Prod.fst)
    (hsome : token.Models = [] ∨ ∃ m ∈ token.Models, m ∈ mc.EnabledModelsMap.map Prod.fst) :
    storeTokenModels (storeTokenModels token mc) mc = storeTokenModels token mc := by
  have hkeep : ∀ l : List String, (∀ m ∈ l, mc.hasKey m = true) →
      sliceFilter l (fun m => mc.hasKey m) = l := by
    intro l hl
    rw [sliceFilter_eq_filter]
    exact List.filter_eq_self.2 hl
  by_cases h0 : token.Models = []
  · have h1 : storeTokenModels token mc = { token with Models := mc.EnabledModels } := by
      simp [storeTokenModels, h0]
    rw [h1]
    by_cases hE : mc.EnabledModels = []
    · simp [storeTokenModels, hE]
    · have hlen : ¬ mc.EnabledModels.length = 0 := by
        simpa [List.length_eq_zero] using hE
      simp only [storeTokenModels, if_neg hlen]
      rw [hkeep mc.EnabledModels
        (fun m hm => (hasKey_iff mc m).2 ((hconsistent m).1 hm))]
  · have hlen : ¬ token.Models.length = 0 := by
      simpa [List.length_eq_zero] using h0
    have h1 : storeTokenModels token mc
        = { token with Models := sliceFilter token.Models (fun m => mc.hasKey m) } := by
      simp only [storeTokenModels, if_neg hlen]
    rcases hsome with h | ⟨m, hm, hkey⟩
    · exact absurd h h0
    · have hmem : m ∈ sliceFilter token.Models (fun m => mc.hasKey m) := by
        rw [sliceFilter_eq_filter, List.mem_filter]
        exact ⟨hm, (hasKey_iff mc m).2 hkey⟩
      have hlen2 : ¬ (sliceFilter token.Models (fun m => mc.hasKey m)).length = 0 := by
        intro hz
        rw [List.length_eq_zero] at hz
        rw [hz] at hmem
        simp at hmem
      rw [h1]
      simp only [storeTokenModels, if_neg hlen2]
      rw [hkeep (sliceFilter token.Models (fun m => mc.hasKey m))]
      intro x hx
      rw [sliceFilter_eq_filter, List.mem_filter] at hx
      exact hx.2

/-- C20 (instance): the allow-list `[gpt-5, gpt-4]` with the sample snapshot, where `gpt-4` is
enabled: a second application changes nothing. -/
theorem storeTokenModels_idempotent_witness :
    storeTokenModels (storeTokenModels { Models := ["gpt-5", "gpt-4"] }
        sampleEnv.LoadModelCaches) sampleEnv.LoadModelCaches
      = storeTokenModels { Models := ["gpt-5", "gpt-4"] } sampleEnv.LoadModelCaches :=
  storeTokenModels_idempotent { Models := ["gpt-5", "gpt-4"] } sampleEnv.LoadModelCaches
    (fun m => by
      rw [(by decide : sampleEnv.LoadModelCaches.EnabledModels
        = sampleEnv.LoadModelCaches.EnabledModelsMap.map Prod.fst)])
    (Or.inr ⟨"gpt-4", by decide, by decide⟩)

/-! ## Admin keys that do not start with `sk-` -/

/-- When the admin key does not start with `sk-`, a header that `AdminAuth` lets through gives
`TokenAuth` the admin key as its credential. -/
theorem credential_eq_adminKey (env : Env) (c : Context) (hfresh : c.nextCalled = false)
    (hkey : env.AdminKey ≠ "") (hsk : HasPrefix env.AdminKey "sk-" = false)
    (haccept : (AdminAuth env c).nextCalled = true) :
    credential c = env.AdminKey := by
  by_cases hcond : env.AdminKey ≠ "" ∧
      (c.Authorization = "" ∨ TrimPrefix c.Authorization "Bearer " ≠ env.AdminKey)
  · simp only [AdminAuth, if_pos hcond] at haccept
    simp [ErrorResponse, Context.Abort, hfresh] at haccept
  · have htrim : TrimPrefix c.Authorization "Bearer " = env.AdminKey := by
      by_contra hne
      exact hcond ⟨hkey, Or.inr hne⟩
    unfold credential
    rw [htrim]
    simp [TrimPrefix, hsk]

/-! ## Dashboard gap filling: what the two alignment steps add, exactly -/

theorem alignFirstLoop_ge (T start : Int) (fuel : Nat) (x : Int) (h : start ≤ x) :
    start ≤ alignFirstLoop T start fuel x := by
  induction fuel generalizing x with
  | zero => exact h
  | succ n ih =>
    unfold alignFirstLoop
    by_cases hc : x + -T < start
    · rw [if_neg (not_not.2 hc)]
      exact h
    · rw [if_pos hc]
      exact ih _ (by omega)

theorem alignLastLoop_le (T stop : Int) (fuel : Nat) (x : Int) (h : x ≤ stop) :
    alignLastLoop T stop fuel x ≤ stop := by
  induction fuel generalizing x with
  | zero => exact h
  | succ n ih =>
    unfold alignLastLoop
    by_cases hc : x + T > stop
    · rw [if_neg (not_not.2 hc)]
      exact h
    · rw [if_pos hc]
      exact ih _ (by omega)

theorem alignFirst_eq_self_iff (T start x : Int) (hT : 0 < T) :
    alignFirst T start x = x ↔ x + -T < start := by
  constructor
  · intro h
    have := alignFirst_exit T start x hT
    rw [h] at this
    exact this
  · intro h
    exact alignFirstLoop_fix T start _ x h

theorem alignLast_eq_self_iff (T stop x : Int) (hT : 0 < T) :
    alignLast T stop x = x ↔ x + T > stop := by
  constructor
  · intro h
    have := alignLast_exit T stop x hT
    rw [h] at this
    exact this
  · intro h
    exact alignLastLoop_fix T stop _ x h

section Exact

variable {μ : Type} [Zero μ]

/-- The walked sequence, exactly: the leading point is synthesized `kf` buckets before the
first input point and the trailing point `kl` buckets after the last one, each only when that
number is not zero, which is the case exactly when the input point is a whole bucket or more
inside the window; the ends of the walked sequence are less than a bucket inside the window
borders when the input ends are inside the window. -/
theorem walked_exact (data : List (ChartData μ)) (d0 dl : ChartData μ)
    (hhead : data.head? = some d0) (hlast : data.getLast? = some dl) (start stop : Int)
    (t : TimeSpanType) :
    ∃ kf kl : Nat,
      walked data start stop t
        = (if kf = 0 then []
            else [ChartData.zeroAt (d0.Timestamp - kf * spanSeconds (timeSpanOf t))])
          ++ data
          ++ (if kl = 0 then []
              else [ChartData.zeroAt (dl.Timestamp + kl * spanSeconds (timeSpanOf t))]) ∧
      firstIsZero data start t = decide (kf ≠ 0) ∧
      lastIsZero data start stop t = decide (kl ≠ 0) ∧
      (kf = 0 ↔ Time.ofUnix d0.Timestamp + -timeSpanOf t < start) ∧
      (kl = 0 ↔ Time.ofUnix dl.Timestamp + timeSpanOf t > stop) ∧
      Time.ofUnix (d0.Timestamp - kf * spanSeconds (timeSpanOf t)) + -timeSpanOf t < start ∧
      (start ≤ Time.ofUnix d0.Timestamp →
        start ≤ Time.ofUnix (d0.Timestamp - kf * spanSeconds (timeSpanOf t))) ∧
      Time.ofUnix (dl.Timestamp + kl * spanSeconds (timeSpanOf t)) + timeSpanOf t > stop ∧
      (Time.ofUnix dl.Timestamp ≤ stop →
        Time.ofUnix (dl.Timestamp + kl * spanSeconds (timeSpanOf t)) ≤ stop) := by
  have hT := timeSpanOf_pos t
  obtain ⟨kf, hf1, hf2, hf3⟩ := alignFirst_spec t start d0.Timestamp
  obtain ⟨kl, hl1, hl2, hl3⟩ := alignLast_spec t stop dl.Timestamp
  have hfexit := alignFirst_exit (timeSpanOf t) start (Time.ofUnix d0.Timestamp) hT
  have hlexit := alignLast_exit (timeSpanOf t) stop (Time.ofUnix dl.Timestamp) hT
  rw [← hf2, hf1] at hfexit
  rw [← hl2, hl1] at hlexit
  have hfge : start ≤ Time.ofUnix d0.Timestamp →
      start ≤ Time.ofUnix (d0.Timestamp - kf * spanSeconds (timeSpanOf t)) := by
    intro h
    have := alignFirstLoop_ge (timeSpanOf t) start
      ((Time.ofUnix d0.Timestamp - start) / timeSpanOf t).toNat _ h
    rw [← hf1, hf2]
    exact this
  have hlle : Time.ofUnix dl.Timestamp ≤ stop →
      Time.ofUnix (dl.Timestamp + kl * spanSeconds (timeSpanOf t)) ≤ stop := by
    intro h
    have := alignLastLoop_le (timeSpanOf t) stop
      ((stop - Time.ofUnix dl.Timestamp) / timeSpanOf t).toNat _ h
    rw [← hl1, hl2]
    exact this
  have hfiff : kf = 0 ↔ Time.ofUnix d0.Timestamp + -timeSpanOf t < start :=
    hf3.symm.trans (alignFirst_eq_self_iff _ _ _ hT)
  have hliff : kl = 0 ↔ Time.ofUnix dl.Timestamp + timeSpanOf t > stop :=
    hl3.symm.trans (alignLast_eq_self_iff _ _ _ hT)
  cases data with
  | nil => simp at hhead
  | cons x xs =>
    simp at hhead
    subst hhead
    -- the first step
    have hA : withLeading (timeSpanOf t) start (x :: xs)
        = ((if kf = 0 then []
            else [ChartData.zeroAt (x.Timestamp - kf * spanSeconds (timeSpanOf t))])
            ++ x :: xs, decide (kf ≠ 0)) := by
      by_cases hk : kf = 0
      · have := hf3.2 hk
        simp [withLeading, this, hk]
      · have : ¬ alignFirst (timeSpanOf t) start (Time.ofUnix x.Timestamp)
            = Time.ofUnix x.Timestamp := fun h => hk (hf3.1 h)
        simp [withLeading, this, hk, hf1]
    have hlast2 : ((if kf = 0 then []
            else [ChartData.zeroAt (x.Timestamp - kf * spanSeconds (timeSpanOf t))])
            ++ x :: xs).getLast? = some dl := by
      rw [List.getLast?_append, hlast]
      rfl
    -- the second step
    have hB : withTrailing (timeSpanOf t) stop
        ((if kf = 0 then []
            else [ChartData.zeroAt (x.Timestamp - kf * spanSeconds (timeSpanOf t))])
            ++ x :: xs)
        = ((if kf = 0 then []
            else [ChartData.zeroAt (x.Timestamp - kf * spanSeconds (timeSpanOf t))])
            ++ x :: xs
            ++ (if kl = 0 then []
              else [ChartData.zeroAt (dl.Timestamp + kl * spanSeconds (timeSpanOf t))]),
            decide (kl ≠ 0)) := by
      unfold withTrailing
      rw [hlast2]
      by_cases hk : kl = 0
      · have := hl3.2 hk
        simp [this, hk]
      · have : ¬ alignLast (timeSpanOf t) stop (Time.ofUnix dl.Timestamp)
            = Time.ofUnix dl.Timestamp := fun h => hk (hl3.1 h)
        simp [this, hk, hl1]
    refine ⟨kf, kl, ?_, ?_, ?_, hfiff, hliff, hfexit, hfge, hlexit, hlle⟩
    · unfold walked
      rw [hA]
      show (withTrailing _ _ _).1 = _
      rw [hB]
    · unfold firstIsZero
      rw [hA]
    · unfold lastIsZero
      rw [hA]
      show (withTrailing _ _ _).2 = _
      rw [hB]

theorem head_getLast_of_ne_nil {α : Type} (data : List α) (hne : data ≠ []) :
    ∃ d0 dl, data.head? = some d0 ∧ data.getLast? = some dl := by
  cases data with
  | nil => exact absurd rfl hne
  | cons x xs => exact ⟨x, _, rfl, List.getLast?_eq_getLast (x :: xs) (List.cons_ne_nil _ _)⟩

end Exact

/-! ## Dashboard gap filling: input points are kept, order is kept, the ends -/

section Kept

variable {μ : Type} [Zero μ]

theorem fillWalk_sublist (S : Int) (hS : 0 < S) (f l : Bool) (n : Nat) (ws : List (ChartData μ)) :
    ∀ (i : Nat) (prev : ChartData μ), List.Sublist ws (fillWalk S f l n i prev ws) := by
  induction ws with
  | nil => intro i prev; exact List.Sublist.slnil
  | cons curr rest ih =>
    intro i prev
    unfold fillWalk
    obtain ⟨mid, hmid, -, -⟩ := fillStep_spec S hS f l n i prev curr
    rw [hmid, List.append_assoc]
    exact (List.Sublist.cons₂ curr (ih (i + 1) curr)).trans (List.sublist_append_right mid _)

theorem fillWalk_mem (S : Int) (hS : 0 < S) (f l : Bool) (n : Nat) (ws : List (ChartData μ)) :
    ∀ (i : Nat) (prev : ChartData μ), ∀ y ∈ fillWalk S f l n i prev ws,
      y ∈ ws ∨ y = ChartData.zeroAt y.Timestamp := by
  induction ws with
  | nil => intro i prev y hy; simp [fillWalk] at hy
  | cons curr rest ih =>
    intro i prev y hy
    unfold fillWalk at hy
    obtain ⟨mid, hmid, hbetween, -⟩ := fillStep_spec S hS f l n i prev curr
    rw [hmid] at hy
    rcases List.mem_append.1 hy with h | h
    · rcases List.mem_append.1 h with h | h
      · right
        have := (hbetween y h).1
        cases y
        simp only [ChartData.zeroAt] at this ⊢
        simp_all
      · left
        rw [List.mem_singleton] at h
        subst h
        exact List.mem_cons_self _ _
    · rcases ih (i + 1) curr y h with h1 | h1
      · exact Or.inl (List.mem_cons_of_mem _ h1)
      · exact Or.inr h1

theorem fillLoop_chain_lt (S : Int) (hS : 0 < S) (c : ChartData μ) (X : List (ChartData μ))
    (hX : List.Chain (fun a b : ChartData μ => a.Timestamp < b.Timestamp) c X)
    (fuel : Nat) (j : Int) (p : ChartData μ) (hj : p.Timestamp < j)
    (hp : p.Timestamp < c.Timestamp) :
    List.Chain (fun a b : ChartData μ => a.Timestamp < b.Timestamp) p
      (fillLoop S c.Timestamp fuel j ++ c :: X) := by
  induction fuel generalizing j p with
  | zero =>
    simp only [fillLoop, List.nil_append]
    exact List.Chain.cons hp hX
  | succ n ih =>
    unfold fillLoop
    by_cases hc : j < c.Timestamp
    · rw [if_pos hc, List.cons_append]
      refine List.Chain.cons hj (ih (j + S) (ChartData.zeroAt j) ?_ hc)
      show j < j + S
      omega
    · rw [if_neg hc, List.nil_append]
      exact List.Chain.cons hp hX

/-- A round on an ascending pair keeps the order strict. -/
theorem fillStep_chain_lt (S : Int) (hS : 0 < S) (f l : Bool) (n i : Nat)
    (prev curr : ChartData μ) (X : List (ChartData μ))
    (hpc : prev.Timestamp < curr.Timestamp)
    (hX : List.Chain (fun a b : ChartData μ => a.Timestamp < b.Timestamp) curr X) :
    List.Chain (fun a b : ChartData μ => a.Timestamp < b.Timestamp) prev
      (fillStep S f l n i prev curr ++ X) := by
  rcases le_or_lt (Int.tdiv (curr.Timestamp - prev.Timestamp) S) 1 with h1 | h1
  · rw [fillStep_le_one S f l n i prev curr h1]
    exact List.Chain.cons hpc hX
  · rcases le_or_lt (Int.tdiv (curr.Timestamp - prev.Timestamp) S) 3 with h3 | h3
    · rw [fillStep_mid S f l n i prev curr h1 h3, List.append_assoc]
      exact fillLoop_chain_lt S hS curr X hX _ _ prev (by omega) hpc
    · have hx : 4 * S ≤ curr.Timestamp - prev.Timestamp := by
        by_contra hcon
        have := (tdiv_le_iff (x := curr.Timestamp - prev.Timestamp) hS (by decide : (0:Int) ≤ 3)).2
          (by omega)
        omega
      rw [fillStep_gt_three S f l n i prev curr h3]
      have e1 : (ChartData.zeroAt (prev.Timestamp + S) : ChartData μ).Timestamp
          = prev.Timestamp + S := rfl
      have e2 : (ChartData.zeroAt (curr.Timestamp - S) : ChartData μ).Timestamp
          = curr.Timestamp - S := rfl
      split <;> split <;>
        simp only [List.nil_append, List.cons_append, List.chain_cons, e1, e2] <;>
        refine ?_ <;> first
          | exact ⟨by omega, by omega, by omega, hX⟩
          | exact ⟨by omega, by omega, hX⟩
          | exact ⟨by omega, hX⟩

theorem fillWalk_chain_lt (S : Int) (hS : 0 < S) (f l : Bool) (n : Nat)
    (ws : List (ChartData μ)) :
    ∀ (i : Nat) (prev : ChartData μ),
      List.Chain (fun a b : ChartData μ => a.Timestamp < b.Timestamp) prev ws →
      List.Chain (fun a b : ChartData μ => a.Timestamp < b.Timestamp) prev
        (fillWalk S f l n i prev ws) := by
  induction ws with
  | nil => intro i prev _; exact List.Chain.nil
  | cons curr rest ih =>
    intro i prev h
    rw [List.chain_cons] at h
    unfold fillWalk
    exact fillStep_chain_lt S hS f l n i prev curr _ h.1 (ih (i + 1) curr h.2)

end Kept

/-- C19: the input is a subsequence of the result (no input point is dropped, reordered or
changed), every point of the result that is not an input point has only its timestamp set, the
metrics being zero, and the empty input is returned as it is. -/
theorem fillGaps_keeps_input {μ : Type} [Zero μ] (data : List (ChartData μ))
    (start end_ : Time) (t : TimeSpanType) :
    List.Sublist data (fillGaps data start end_ t) ∧
      (∀ y ∈ fillGaps data start end_ t, y ∈ data ∨ y = ChartData.zeroAt y.Timestamp) ∧
      fillGaps ([] : List (ChartData μ)) start end_ t = [] := by
  refine ⟨?_, ?_, rfl⟩
  · by_cases hne : data = []
    · subst hne; exact List.Sublist.slnil
    · obtain ⟨f, l, w0, ws, hW, hF⟩ := fillGaps_eq_walk data hne start end_ t
      obtain ⟨lead, trail, hWs, -, -, -, -⟩ := walked_spec data hne start end_ t
      have h1 : List.Sublist data (w0 :: ws) := by
        rw [← hW, hWs, List.append_assoc]
        exact (List.sublist_append_left data trail).trans (List.sublist_append_right lead _)
      rw [hF]
      exact h1.trans (List.Sublist.cons₂ w0
        (fillWalk_sublist _ (spanSeconds_pos t) f l _ ws 1 w0))
  · intro y hy
    by_cases hne : data = []
    · subst hne; simp [fillGaps] at hy
    · obtain ⟨f, l, w0, ws, hW, hF⟩ := fillGaps_eq_walk data hne start end_ t
      obtain ⟨lead, trail, hWs, hlead, htrail, -, -⟩ := walked_spec data hne start end_ t
      have hwalked : ∀ x ∈ w0 :: ws, x ∈ data ∨ x = ChartData.zeroAt x.Timestamp := by
        intro x hx
        rw [← hW, hWs] at hx
        rcases List.mem_append.1 hx with h | h
        · rcases List.mem_append.1 h with h | h
          · rcases hlead with hl | ⟨z, hz, -⟩
            · rw [hl] at h; simp at h
            · rw [hz, List.mem_singleton] at h
              subst h
              exact Or.inr rfl
          · exact Or.inl h
        · rcases htrail with hl | ⟨z, hz, -⟩
          · rw [hl] at h; simp at h
          · rw [hz, List.mem_singleton] at h
            subst h
            exact Or.inr rfl
      rw [hF] at hy
      rcases List.mem_cons.1 hy with h | h
      · subst h
        exact hwalked _ (List.mem_cons_self _ _)
      · rcases fillWalk_mem _ (spanSeconds_pos t) f l _ ws 1 w0 y h with h1 | h1
        · exact hwalked y (List.mem_cons_of_mem _ h1)
        · exact Or.inr h1

/-- C14: when the input timestamps are strictly ascending, the timestamps of the result are
strictly ascending, for every window and span type, and so no two points of the result have the
same timestamp. -/
theorem fillGaps_strictly_ascending {μ : Type} [Zero μ] (data : List (ChartData μ))
    (start end_ : Time) (t : TimeSpanType)
    (hasc : List.Pairwise (fun a b : ChartData μ => a.Timestamp < b.Timestamp) data) :
    List.Pairwise (fun a b : ChartData μ => a.Timestamp < b.Timestamp)
        (fillGaps data start end_ t) ∧
      (timestamps (fillGaps data start end_ t)).Nodup := by
  have hmain : List.Pairwise (fun a b : ChartData μ => a.Timestamp < b.Timestamp)
      (fillGaps data start end_ t) := by
    by_cases hne : data = []
    · subst hne; exact List.Pairwise.nil
    · have hS := spanSeconds_pos t
      obtain ⟨d0, dl, hhead, hlast⟩ := head_getLast_of_ne_nil data hne
      obtain ⟨f, l, w0, ws, hW, hF⟩ := fillGaps_eq_walk data hne start end_ t
      obtain ⟨kf, kl, hWs, -, -, -, -, -, -, -, -⟩ :=
        walked_exact data d0 dl hhead hlast start end_ t
      -- the first input point is the least and the last one the greatest
      have hd0 : ∀ x ∈ data, d0.Timestamp ≤ x.Timestamp := by
        intro x hx
        cases data with
        | nil => simp at hx
        | cons a as =>
          simp at hhead
          subst hhead
          rcases List.mem_cons.1 hx with h | h
          · subst h; exact le_refl _
          · exact le_of_lt ((List.pairwise_cons.1 hasc).1 x h)
      have hdl : ∀ x ∈ data, x.Timestamp ≤ dl.Timestamp := by
        intro x hx
        obtain ⟨init, hinit⟩ : ∃ init, data = init ++ [dl] := by
          rcases List.eq_nil_or_concat data with h | ⟨L, b, hb⟩
          · exact absurd h hne
          · rw [List.concat_eq_append] at hb
            rw [hb, List.getLast?_append] at hlast
            simp at hlast
            exact ⟨L, by rw [hb, hlast]⟩
        rw [hinit] at hx hasc
        rcases List.mem_append.1 hx with h | h
        · exact le_of_lt ((List.pairwise_append.1 hasc).2.2 x h dl (List.mem_singleton_self _))
        · rw [List.mem_singleton] at h; subst h; exact le_refl _
      have hpw : List.Pairwise (fun a b : ChartData μ => a.Timestamp < b.Timestamp)
          (w0 :: ws) := by
        rw [← hW, hWs]
        have hkf : (0 : Int) < kf * spanSeconds (timeSpanOf t) ∨ kf = 0 := by
          rcases Nat.eq_zero_or_pos kf with h | h
          · exact Or.inr h
          · exact Or.inl (Int.mul_pos (by exact_mod_cast h) hS)
        have hkl : (0 : Int) < kl * spanSeconds (timeSpanOf t) ∨ kl = 0 := by
          rcases Nat.eq_zero_or_pos kl with h | h
          · exact Or.inr h
          · exact Or.inl (Int.mul_pos (by exact_mod_cast h) hS)
        refine List.pairwise_append.2 ⟨List.pairwise_append.2 ⟨?_, hasc, ?_⟩, ?_, ?_⟩
        · split
          · exact List.Pairwise.nil
          · exact List.pairwise_singleton _ _
        · intro a ha b hb
          split at ha
          · simp at ha
          · rename_i hk
            rw [List.mem_singleton] at ha
            subst ha
            have := hd0 b hb
            rcases hkf with h | h
            · show d0.Timestamp - kf * spanSeconds (timeSpanOf t) < b.Timestamp
              omega
            · exact absurd h hk
        · split
          · exact List.Pairwise.nil
          · exact List.pairwise_singleton _ _
        · intro a ha b hb
          split at hb
          · simp at hb
          · rename_i hk
            rw [List.mem_singleton] at hb
            subst hb
            have hale : a.Timestamp ≤ dl.Timestamp := by
              rcases List.mem_append.1 ha with h | h
              · split at h
                · simp at h
                · rw [List.mem_singleton] at h
                  subst h
                  have := hd0 dl (by
                    rcases List.eq_nil_or_concat data with h0 | ⟨L, b, hb⟩
                    · exact absurd h0 hne
                    · rw [List.concat_eq_append] at hb
                      rw [hb, List.getLast?_append] at hlast
                      simp at hlast
                      rw [hb, hlast]; simp)
                  rcases hkf with h | h
                  · show d0.Timestamp - kf * spanSeconds (timeSpanOf t) ≤ dl.Timestamp
                    omega
                  · rename_i hk0
                    exact absurd h hk0
              · exact hdl a h
            rcases hkl with h | h
            · show a.Timestamp < dl.Timestamp + kl * spanSeconds (timeSpanOf t)
              omega
            · exact absurd h hk
      rw [hF]
      have hchain := fillWalk_chain_lt _ hS f l (ws.length + 1) ws 1 w0
        (List.Pairwise.chain' hpw)
      exact (@List.chain'_iff_pairwise _ (fun a b : ChartData μ => a.Timestamp < b.Timestamp)
        ⟨fun _ _ _ h1 h2 => lt_trans h1 h2⟩ _).1 hchain
  refine ⟨hmain, ?_⟩
  unfold timestamps
  rw [List.Nodup, List.pairwise_map]
  exact hmain.imp (fun h => ne_of_lt h)

/-- C14 (instance): the ascending hours 0, 1, 9 in the window from hour 0 to hour 9. -/
theorem fillGaps_strictly_ascending_witness :
    List.Pairwise (fun a b : ChartData Nat => a.Timestamp < b.Timestamp)
        (fillGaps (hourPoints [0, 1, 9]) (Time.ofUnix 0) (Time.ofUnix 32400)
          TimeSpanType.TimeSpanHour) ∧
      (timestamps (fillGaps (hourPoints [0, 1, 9]) (Time.ofUnix 0) (Time.ofUnix 32400)
          TimeSpanType.TimeSpanHour)).Nodup :=
  fillGaps_strictly_ascending (hourPoints [0, 1, 9]) (Time.ofUnix 0) (Time.ofUnix 32400)
    TimeSpanType.TimeSpanHour (by decide)

theorem ofUnix_window (t : TimeSpanType) (x s : Int) :
    (Time.ofUnix x + -timeSpanOf t < Time.ofUnix s ↔ x < s + spanSeconds (timeSpanOf t)) ∧
    (Time.ofUnix x + timeSpanOf t > Time.ofUnix s ↔ s - spanSeconds (timeSpanOf t) < x) ∧
    (Time.ofUnix s ≤ Time.ofUnix x ↔ s ≤ x) := by
  rcases timeSpanOf_cases t with ⟨h1, h2⟩ | ⟨h1, h2⟩ <;>
    · rw [h2, h1]
      unfold Time.ofUnix Second Time
      refine ⟨?_, ?_, ?_⟩ <;> constructor <;> intro h <;> omega

/-- The first and the last point of the result are the first and the last walked point. -/
theorem fillGaps_head_getLast {μ : Type} [Zero μ] (data : List (ChartData μ)) (hne : data ≠ [])
    (start stop : Int) (t : TimeSpanType) :
    (fillGaps data start stop t).head? = (walked data start stop t).head? ∧
      (fillGaps data start stop t).getLast? = (walked data start stop t).getLast? := by
  obtain ⟨f, l, w0, ws, hW, hF⟩ := fillGaps_eq_walk data hne start stop t
  rw [hW, hF]
  refine ⟨rfl, ?_⟩
  cases ws with
  | nil => rfl
  | cons a rest =>
    have h1 := fillWalk_getLast? (spanSeconds (timeSpanOf t)) (spanSeconds_pos t) f l
      ((a :: rest).length + 1) (a :: rest) 1 w0
    have hne2 : fillWalk (spanSeconds (timeSpanOf t)) f l ((a :: rest).length + 1) 1 w0
        (a :: rest) ≠ [] := by
      intro h0
      rw [h0, List.getLast?_eq_getLast (a :: rest) (List.cons_ne_nil a rest)] at h1
      cases h1
    obtain ⟨b, bs, hb⟩ := List.exists_cons_of_ne_nil hne2
    rw [hb] at h1 ⊢
    rw [List.getLast?_cons_cons, List.getLast?_cons_cons]
    exact h1

/-- C13: for a non-empty input whose first point `d0` is at or after `start` and whose last
point `dl` is at or before `end`, both in whole seconds: the first point of the result lies in
`[start, start + bucket)` and is `kf` whole buckets before `d0`, the last point lies in
`(end - bucket, end]` and is `kl` whole buckets after `dl`; the leading point is synthesized, as
a zero point, exactly when `d0` is at least one bucket after `start` (otherwise the first point
of the result is `d0` itself), and the trailing point exactly when `dl` is at least one bucket
before `end`. -/
theorem fillGaps_ends {μ : Type} [Zero μ] (data : List (ChartData μ)) (d0 dl : ChartData μ)
    (s e : Int) (t : TimeSpanType)
    (hhead : data.head? = some d0) (hlast : data.getLast? = some dl)
    (hs : s ≤ d0.Timestamp) (he : dl.Timestamp ≤ e) :
    ∃ (kf kl : Nat) (o0 ol : ChartData μ),
      (fillGaps data (Time.ofUnix s) (Time.ofUnix e) t).head? = some o0 ∧
      (fillGaps data (Time.ofUnix s) (Time.ofUnix e) t).getLast? = some ol ∧
      o0.Timestamp = d0.Timestamp - kf * spanSeconds (timeSpanOf t) ∧
      s ≤ o0.Timestamp ∧ o0.Timestamp < s + spanSeconds (timeSpanOf t) ∧
      ol.Timestamp = dl.Timestamp + kl * spanSeconds (timeSpanOf t) ∧
      e - spanSeconds (timeSpanOf t) < ol.Timestamp ∧ ol.Timestamp ≤ e ∧
      (kf ≠ 0 ↔ s + spanSeconds (timeSpanOf t) ≤ d0.Timestamp) ∧
      (kl ≠ 0 ↔ dl.Timestamp ≤ e - spanSeconds (timeSpanOf t)) ∧
      o0 = (if kf = 0 then d0 else ChartData.zeroAt o0.Timestamp) ∧
      ol = (if kl = 0 then dl else ChartData.zeroAt ol.Timestamp) ∧
      walked data (Time.ofUnix s) (Time.ofUnix e) t
        = (if kf = 0 then [] else [o0]) ++ data ++ (if kl = 0 then [] else [ol]) := by
  have hne : data ≠ [] := by
    intro h; rw [h] at hhead; simp at hhead
  obtain ⟨kf, kl, hW, -, -, hfiff, hliff, hfexit, hfge, hlexit, hlle⟩ :=
    walked_exact data d0 dl hhead hlast (Time.ofUnix s) (Time.ofUnix e) t
  obtain ⟨hh, hl⟩ := fillGaps_head_getLast data hne (Time.ofUnix s) (Time.ofUnix e) t
  rw [(ofUnix_window t _ _).1] at hfiff hfexit
  rw [(ofUnix_window t _ _).2.1] at hliff hlexit
  rw [(ofUnix_window t _ _).2.2, (ofUnix_window t _ _).2.2] at hfge
  have hlle2 : dl.Timestamp + kl * spanSeconds (timeSpanOf t) ≤ e := by
    have := hlle ((ofUnix_window t _ _).2.2.2 he)
    exact (ofUnix_window t _ _).2.2.1 this
  have hfge2 := hfge hs
  obtain ⟨x, xs, hx⟩ := List.exists_cons_of_ne_nil hne
  have hxd : x = d0 := by
    rw [hx] at hhead; simpa using hhead
  refine ⟨kf, kl,
    if kf = 0 then d0 else ChartData.zeroAt (d0.Timestamp - kf * spanSeconds (timeSpanOf t)),
    if kl = 0 then dl else ChartData.zeroAt (dl.Timestamp + kl * spanSeconds (timeSpanOf t)),
    ?_, ?_, ?_, ?_, ?_, ?_, ?_, ?_, ?_, ?_, ?_, ?_, ?_⟩
  · rw [hh, hW]
    by_cases hk : kf = 0
    · simp [hk, hx, hxd]
    · simp [hk]
  · rw [hl, hW]
    by_cases hk : kl = 0
    · simp only [hk, if_true, List.append_nil]
      rw [List.getLast?_append, hlast]
      rfl
    · simp [hk]
  · by_cases hk : kf = 0
    · simp [hk]
    · simp only [hk, if_false]; rfl
  · by_cases hk : kf = 0
    · simp only [hk, if_true]; exact hs
    · simp only [hk, if_false]; exact hfge2
  · by_cases hk : kf = 0
    · simp only [hk, if_true]; exact hfiff.1 hk
    · simp only [hk, if_false]; exact hfexit
  · by_cases hk : kl = 0
    · simp [hk]
    · simp only [hk, if_false]; rfl
  · by_cases hk : kl = 0
    · simp only [hk, if_true]; exact hliff.1 hk
    · simp only [hk, if_false]; exact hlexit
  · by_cases hk : kl = 0
    · simp only [hk, if_true]; exact he
    · simp only [hk, if_false]; exact hlle2
  · rw [Ne, hfiff]; omega
  · rw [Ne, hliff]; omega
  · by_cases hk : kf = 0
    · simp [hk]
    · simp only [hk, if_false]; rfl
  · by_cases hk : kl = 0
    · simp [hk]
    · simp only [hk, if_false]; rfl
  · rw [hW]
    by_cases hk : kf = 0 <;> by_cases hk2 : kl = 0 <;> simp [hk, hk2]

/-- C13 (instance): the hours 3 and 10 in the window from hour 0 to hour 20. -/
theorem fillGaps_ends_witness :
    ∃ (kf kl : Nat) (o0 ol : ChartData Nat),
      (fillGaps (hourPoints [3, 10]) (Time.ofUnix 0) (Time.ofUnix 72000)
        TimeSpanType.TimeSpanHour).head? = some o0 ∧
      (fillGaps (hourPoints [3, 10]) (Time.ofUnix 0) (Time.ofUnix 72000)
        TimeSpanType.TimeSpanHour).getLast? = some ol ∧
      o0.Timestamp
        = (⟨10800, 1⟩ : ChartData Nat).Timestamp
          - kf * spanSeconds (timeSpanOf TimeSpanType.TimeSpanHour) ∧
      0 ≤ o0.Timestamp ∧ o0.Timestamp < 0 + spanSeconds (timeSpanOf TimeSpanType.TimeSpanHour) ∧
      ol.Timestamp
        = (⟨36000, 1⟩ : ChartData Nat).Timestamp
          + kl * spanSeconds (timeSpanOf TimeSpanType.TimeSpanHour) ∧
      72000 - spanSeconds (timeSpanOf TimeSpanType.TimeSpanHour) < ol.Timestamp ∧
      ol.Timestamp ≤ 72000 ∧
      (kf ≠ 0 ↔ 0 + spanSeconds (timeSpanOf TimeSpanType.TimeSpanHour)
        ≤ (⟨10800, 1⟩ : ChartData Nat).Timestamp) ∧
      (kl ≠ 0 ↔ (⟨36000, 1⟩ : ChartData Nat).Timestamp
        ≤ 72000 - spanSeconds (timeSpanOf TimeSpanType.TimeSpanHour)) ∧
      o0 = (if kf = 0 then ⟨10800, 1⟩ else ChartData.zeroAt o0.Timestamp) ∧
      ol = (if kl = 0 then ⟨36000, 1⟩ else ChartData.zeroAt ol.Timestamp) ∧
      walked (hourPoints [3, 10]) (Time.ofUnix 0) (Time.ofUnix 72000) TimeSpanType.TimeSpanHour
        = (if kf = 0 then [] else [o0]) ++ hourPoints [3, 10] ++ (if kl = 0 then [] else [ol]) :=
  fillGaps_ends (hourPoints [3, 10]) ⟨10800, 1⟩ ⟨36000, 1⟩ 0 72000 TimeSpanType.TimeSpanHour
    (by decide) (by decide) (by decide) (by decide)

/-! ## Dashboard gap filling: the per-gap rule -/

theorem ediv_le_iff {x s k : Int} (hs : 0 < s) : x / s ≤ k ↔ x < (k + 1) * s := by
  rw [← Int.lt_add_one_iff]
  exact Int.ediv_lt_iff_lt_mul hs

section Rule

variable {μ : Type} [Zero μ]

/-- The fill loop, as a list comprehension: of the points one bucket apart from `j` on, as many
as the fuel, those below `c`. -/
theorem fillLoop_eq_filter (S c : Int) (hS : 0 < S) (fuel : Nat) (j : Int) :
    (fillLoop S c fuel j : List (ChartData μ))
      = ((List.range fuel).map
          (fun k : Nat => (ChartData.zeroAt (j + (k : Int) * S) : ChartData μ))).filter
          (fun y => y.Timestamp < c) := by
  induction fuel generalizing j with
  | zero => simp [fillLoop]
  | succ n ih =>
    unfold fillLoop
    rw [List.range_succ_eq_map, List.map_cons, List.map_map]
    have hfun : ((fun k : Nat => (ChartData.zeroAt (j + (k : Int) * S) : ChartData μ)) ∘ Nat.succ)
        = fun k : Nat => (ChartData.zeroAt (j + S + (k : Int) * S) : ChartData μ) := by
      funext k
      simp only [Function.comp, Nat.succ_eq_add_one]
      congr 1
      push_cast
      ring
    rw [hfun]
    by_cases hc : j < c
    · rw [if_pos hc, ih (j + S)]
      have h0 : (ChartData.zeroAt (j + ((0 : Nat) : Int) * S) : ChartData μ) = ChartData.zeroAt j := by
        simp
      rw [h0, List.filter_cons_of_pos]
      simpa [ChartData.zeroAt] using hc
    · rw [if_neg hc]
      symm
      rw [List.filter_eq_nil_iff]
      intro y hy
      rcases List.mem_cons.1 hy with h | h
      · subst h
        simp [ChartData.zeroAt]
        omega
      · rw [List.mem_map] at h
        obtain ⟨k, -, hk⟩ := h
        subst hk
        have : (0 : Int) ≤ (k : Int) * S := Int.mul_nonneg (Int.ofNat_nonneg k) (le_of_lt hS)
        simp [ChartData.zeroAt]
        omega

/-- One round of the main loop appends the points of the rule, then `curr`. -/
theorem fillStep_eq_gapRule (S : Int) (hS : 0 < S) (f l : Bool) (n k : Nat)
    (prev curr : ChartData μ) :
    fillStep S f l n (k + 1) prev curr
      = gapRule S f l (decide (k = 0)) (decide (k + 2 = n)) prev curr ++ [curr] := by
  rcases le_or_lt (Int.tdiv (curr.Timestamp - prev.Timestamp) S) 1 with h1 | h1
  · have hx := (tdiv_le_iff (x := curr.Timestamp - prev.Timestamp) hS (by decide : (0:Int) ≤ 1)).1 h1
    have hd : (curr.Timestamp - prev.Timestamp) / S ≤ 1 := (ediv_le_iff hS).2 hx
    rw [fillStep_le_one S f l n (k + 1) prev curr h1]
    simp [gapRule, hd]
  · have hx1 : ¬ curr.Timestamp - prev.Timestamp < (1 + 1) * S := fun h =>
      absurd ((tdiv_le_iff hS (by decide : (0:Int) ≤ 1)).2 h) (by omega)
    have hd1 : ¬ (curr.Timestamp - prev.Timestamp) / S ≤ 1 := fun h =>
      hx1 ((ediv_le_iff hS).1 h)
    have hpos : 0 ≤ curr.Timestamp - prev.Timestamp := by
      by_contra hneg
      apply hx1
      have : 0 < (1 + 1) * S := by omega
      omega
    have heq : Int.tdiv (curr.Timestamp - prev.Timestamp) S
        = (curr.Timestamp - prev.Timestamp) / S := Int.tdiv_eq_ediv hpos (le_of_lt hS)
    rcases le_or_lt (Int.tdiv (curr.Timestamp - prev.Timestamp) S) 3 with h3 | h3
    · have hd3 : (curr.Timestamp - prev.Timestamp) / S ≤ 3 := by rw [← heq]; exact h3
      rw [fillStep_mid S f l n (k + 1) prev curr h1 h3, fillLoop_eq_filter S _ hS, heq]
      simp only [gapRule, if_neg hd1, if_pos hd3]
      congr 3
      funext j
      congr 1
      ring
    · have hd3 : ¬ (curr.Timestamp - prev.Timestamp) / S ≤ 3 := by rw [← heq]; omega
      rw [fillStep_gt_three S f l n (k + 1) prev curr h3]
      simp only [gapRule, if_neg hd1, if_neg hd3]
      congr 1
      congr 1
      · by_cases hk : k = 0 <;> cases f <;> simp [hk]
      · by_cases hk : k + 2 = n
        · have : k + 1 = n - 1 := by omega
          cases l <;> simp [hk, this]
        · have : ¬ k + 1 = n - 1 := by omega
          cases l <;> simp [hk, this]

theorem fillWalk_eq_insertGaps (S : Int) (hS : 0 < S) (f l : Bool) (n : Nat)
    (ws : List (ChartData μ)) :
    ∀ (k : Nat) (prev : ChartData μ),
      fillWalk S f l n (k + 1) prev ws
        = insertGaps (fun k prev curr =>
            gapRule S f l (decide (k = 0)) (decide (k + 2 = n)) prev curr) k prev ws := by
  induction ws with
  | nil => intro k prev; rfl
  | cons curr rest ih =>
    intro k prev
    unfold fillWalk insertGaps
    rw [fillStep_eq_gapRule S hS, ih (k + 1) curr]
    simp

/-- The result with the flags named: the first walked point, then the main loop run with
`firstIsZero` and `lastIsZero` over the rest of the walked sequence. -/
theorem fillGaps_eq_walk_flags (data : List (ChartData μ)) (start stop : Int)
    (t : TimeSpanType) :
    fillGaps data start stop t
      = match walked data start stop t with
        | [] => []
        | w0 :: ws =>
          w0 :: fillWalk (spanSeconds (timeSpanOf t)) (firstIsZero data start t)
            (lastIsZero data start stop t) (ws.length + 1) 1 w0 ws := by
  cases data with
  | nil => simp [fillGaps, walked, withLeading, withTrailing]
  | cons d0 ds =>
    rcases hA : withLeading (timeSpanOf t) start (d0 :: ds) with ⟨A, f⟩
    rcases hB : withTrailing (timeSpanOf t) stop A with ⟨B, l⟩
    have hWB : walked (d0 :: ds) start stop t = B := by
      unfold walked
      rw [hA]
      show (withTrailing (timeSpanOf t) stop A).1 = B
      rw [hB]
    have hf : firstIsZero (d0 :: ds) start t = f := by
      unfold firstIsZero; rw [hA]
    have hl : lastIsZero (d0 :: ds) start stop t = l := by
      unfold lastIsZero
      rw [hA]
      show (withTrailing (timeSpanOf t) stop A).2 = l
      rw [hB]
    rw [hWB, hf, hl]
    cases B with
    | nil => simp [fillGaps, hA, hB]
    | cons w0 ws => simp [fillGaps, hA, hB]

end Rule

/-- C12: the result of `fillGaps` is the walked sequence (the input plus any synthesized
leading and trailing point) with, between each pair of consecutive points `prev`, `curr`, the
points of the per-gap rule: nothing when the bucket count `d` is at most 1; when `d` is 2 or 3,
zero points with strictly ascending timestamps that are exactly the `prev + k * bucket`, `k ≥ 1`,
strictly below `curr`; when `d > 3`, the zero points `prev + bucket` and `curr - bucket`, the
first left out for the first pair after a synthesized leading point and the second for the last
pair before a synthesized trailing point. -/
theorem fillGaps_eq_fillGapsByRule {μ : Type} [Zero μ] (data : List (ChartData μ))
    (start end_ : Time) (t : TimeSpanType) :
    fillGaps data start end_ t = fillGapsByRule data start end_ t ∧
    ∀ (lead trail first last : Bool) (prev curr : ChartData μ),
      2 ≤ (curr.Timestamp - prev.Timestamp) / spanSeconds (timeSpanOf t) →
      (curr.Timestamp - prev.Timestamp) / spanSeconds (timeSpanOf t) ≤ 3 →
      (∀ y ∈ gapRule (spanSeconds (timeSpanOf t)) lead trail first last prev curr,
        y = ChartData.zeroAt y.Timestamp) ∧
      List.Pairwise (fun a b : ChartData μ => a.Timestamp < b.Timestamp)
        (gapRule (spanSeconds (timeSpanOf t)) lead trail first last prev curr) ∧
      ∀ ts, ts ∈ timestamps (gapRule (spanSeconds (timeSpanOf t)) lead trail first last
          prev curr) ↔
        ∃ k : Nat, 1 ≤ k ∧ ts = prev.Timestamp + k * spanSeconds (timeSpanOf t) ∧
          ts < curr.Timestamp := by
  have hS := spanSeconds_pos t
  constructor
  · rw [fillGaps_eq_walk_flags]
    unfold fillGapsByRule
    cases walked data start end_ t with
    | nil => rfl
    | cons w0 ws =>
      simp only []
      rw [fillWalk_eq_insertGaps _ hS]
  · intro lead trail first last prev curr h2 h3
    generalize hSdef : spanSeconds (timeSpanOf t) = S at *
    have hd1 : ¬ (curr.Timestamp - prev.Timestamp) / S ≤ 1 := by omega
    have hrule : gapRule S lead trail first last prev curr
        = ((List.range ((curr.Timestamp - prev.Timestamp) / S).toNat).map
            (fun k : Nat =>
              (ChartData.zeroAt (prev.Timestamp + ((k : Int) + 1) * S) : ChartData μ))).filter
            (fun y => y.Timestamp < curr.Timestamp) := by
      simp only [gapRule, if_neg hd1, if_pos h3]
    rw [hrule]
    refine ⟨?_, ?_, ?_⟩
    · intro y hy
      rw [List.mem_filter, List.mem_map] at hy
      obtain ⟨⟨k, -, hk⟩, -⟩ := hy
      subst hk
      rfl
    · apply List.Pairwise.filter
      rw [List.pairwise_map]
      refine (List.pairwise_lt_range _).imp ?_
      intro a b hab
      show prev.Timestamp + ((a : Int) + 1) * S < prev.Timestamp + ((b : Int) + 1) * S
      have : ((a : Int) + 1) * S < ((b : Int) + 1) * S :=
        Int.mul_lt_mul_of_pos_right (by exact_mod_cast Nat.succ_lt_succ hab) hS
      omega
    · intro ts
      unfold timestamps
      rw [List.mem_map]
      constructor
      · rintro ⟨y, hy, rfl⟩
        rw [List.mem_filter, List.mem_map] at hy
        obtain ⟨⟨k, -, hk⟩, hlt⟩ := hy
        subst hk
        refine ⟨k + 1, by omega, ?_, by simpa using hlt⟩
        show prev.Timestamp + ((k : Int) + 1) * S = prev.Timestamp + ((k + 1 : Nat) : Int) * S
        push_cast
        rfl
      · rintro ⟨k, hk1, hts, hlt⟩
        refine ⟨ChartData.zeroAt ts, ?_, rfl⟩
        rw [List.mem_filter, List.mem_map]
        refine ⟨⟨k - 1, ?_, ?_⟩, by simpa [ChartData.zeroAt] using hlt⟩
        · rw [List.mem_range]
          -- `k * S < curr - prev < (d + 1) * S`, hence `k ≤ d`
          have hlt2 : curr.Timestamp - prev.Timestamp
              < ((curr.Timestamp - prev.Timestamp) / S + 1) * S :=
            Int.lt_ediv_add_one_mul_self _ hS
          have hkS : (k : Int) * S < ((curr.Timestamp - prev.Timestamp) / S + 1) * S := by
            omega
          have hkd : (k : Int) < (curr.Timestamp - prev.Timestamp) / S + 1 :=
            lt_of_mul_lt_mul_right hkS (le_of_lt hS)
          omega
        · have : ((k - 1 : Nat) : Int) + 1 = k := by omega
          rw [this, hts]

/-- C12 (instance): the hours 3, 5, 10 in the window from hour 0 to hour 20.  The walked
sequence is 0, 3, 5, 10, 20 with both ends synthesized; the pairs 0, 3 and 3, 5 are filled, the
pair 5, 10 gets its two markers, and the last pair 10, 20 only the marker after hour 10. -/
theorem fillGaps_eq_fillGapsByRule_witness :
    fillGaps (hourPoints [3, 5, 10]) (Time.ofUnix 0) (Time.ofUnix 72000)
        TimeSpanType.TimeSpanHour
      = [⟨0, 0⟩, ⟨3600, 0⟩, ⟨7200, 0⟩, ⟨10800, 1⟩, ⟨14400, 0⟩, ⟨18000, 1⟩, ⟨21600, 0⟩,
          ⟨32400, 0⟩, ⟨36000, 1⟩, ⟨39600, 0⟩, ⟨72000, 0⟩] :=
  (fillGaps_eq_fillGapsByRule (hourPoints [3, 5, 10]) (Time.ofUnix 0) (Time.ofUnix 72000)
    TimeSpanType.TimeSpanHour).1.trans (by decide)

end Aiproxy
